import Mathlib

/-!
# Pack calculator

A shallow embedding of the pack optimiser (`internal/algorithm/dp.go`), of the
calculation service with its memo (`internal/calculator`), and of the update
handler (`internal/handlers/api.go`).

Conventions of the embedding.

* Go `int` is 64 bits wide. Its values are modelled by `Int`, and the two
  sums that can leave the 64-bit range, `orderSize + packSizes[0]` and
  `maxSize + 1`, wrap around as they do in Go (`wrapInt`). `make` panics on a
  negative length and on a table of more than `maxTableLen` cells. Once the
  table is allocated every other integer the optimiser computes is an index
  into it, a total equal to such an index, or a pack count no larger than
  such an index, so nothing else can wrap. A run that exhausts memory or
  time with a table below that limit is outside the embedding.
* A run-time panic (index out of range, `makeslice: len out of range`) is the
  value `none`.
* A Go `map[int]int` is an association list kept in increasing key order,
  so that two maps with the same entries are equal lists. The `nil` map of a
  zero-valued struct field is `none`, a map obtained from `make` is `some _`.
-/

namespace PackCalculator

/-- Entries of a Go `map[int]int`, in increasing key order. -/
abbrev PackMap := List (Int × Int)

/-- The statement `m[k]++`: a missing key reads as zero. -/
def PackMap.incr (k : Int) : PackMap → PackMap
  | [] => [(k, 1)]
  | (k', v) :: rest =>
    if k = k' then (k', v + 1) :: rest
    else if k < k' then (k, 1) :: (k', v) :: rest
    else (k', v) :: PackMap.incr k rest

/-- Sum of `size * quantity` over the entries of a map. -/
def PackMap.items (m : PackMap) : Int := (m.map (fun e => e.1 * e.2)).sum

/-- Sum of the quantities over the entries of a map. -/
def PackMap.count (m : PackMap) : Int := (m.map (fun e => e.2)).sum

/-- The entries seen by `for k, v := range m`; ranging over a `nil` map
yields nothing. -/
def entriesOf : Option PackMap → PackMap
  | none => []
  | some m => m

/-- `models.DPEntry`. -/
structure DPEntry where
  TotalItems : Int
  TotalPacks : Int
  Packs : Option PackMap
  deriving DecidableEq, Repr

/-- `models.CalculationResponse`. -/
structure CalculationResponse where
  Packs : Option PackMap
  TotalItems : Int
  TotalPacks : Int
  deriving DecidableEq, Repr

/-- The value every table cell gets in the initialisation loop:
`DPEntry{TotalItems: -1, Packs: make(map[int]int)}`. -/
def impossibleEntry : DPEntry := { TotalItems := -1, TotalPacks := 0, Packs := some [] }

/-- The base case `dp[0]`. -/
def zeroEntry : DPEntry := { TotalItems := 0, TotalPacks := 0, Packs := some [] }

/-- The initial `bestSolution := models.DPEntry{TotalItems: -1}`. -/
def noSolution : DPEntry := { TotalItems := -1, TotalPacks := 0, Packs := none }

/-- Read `dp[k]` for an `int` index `k`; `none` when out of range. -/
def readAt (dp : List DPEntry) (k : Int) : Option DPEntry :=
  if 0 ≤ k then dp[k.toNat]? else none

/-- Body of the inner loop of the fill phase, for table index `i` and one
`packSize`. -/
def relax (orderSize : Int) (i : Nat) (dp : List DPEntry) (packSize : Int) :
    Option (List DPEntry) :=
  if packSize ≤ (i : Int) then
    match readAt dp ((i : Int) - packSize) with
    | none => none
    | some prev =>
      if prev.TotalItems ≠ -1 then
        let newTotalItems := prev.TotalItems + packSize
        let newTotalPacks := prev.TotalPacks + 1
        match dp[i]? with
        | none => none
        | some cur =>
          if cur.TotalItems = -1 ∨
              ((i : Int) ≥ orderSize ∧ newTotalItems < cur.TotalItems) ∨
              ((i : Int) ≥ orderSize ∧ newTotalItems = cur.TotalItems ∧
                newTotalPacks < cur.TotalPacks) then
            some (dp.set i
              { TotalItems := newTotalItems
                TotalPacks := newTotalPacks
                Packs := some (PackMap.incr packSize (entriesOf prev.Packs)) })
          else some dp
      else some dp
  else some dp

/-- One iteration of the outer fill loop: `for _, packSize := range packSizes`. -/
def fillRow (orderSize : Int) (packSizes : List Int) (dp : List DPEntry) (i : Nat) :
    Option (List DPEntry) :=
  packSizes.foldlM (relax orderSize i) dp

/-- The fill phase: `for i := 1; i <= maxSize; i++`. -/
def fillTable (orderSize : Int) (packSizes : List Int) (maxSize : Int)
    (dp : List DPEntry) : Option (List DPEntry) :=
  (List.range' 1 maxSize.toNat).foldlM (fillRow orderSize packSizes) dp

/-- Body of the final scan for index `i`. -/
def pick (dp : List DPEntry) (bestSolution : DPEntry) (i : Nat) : Option DPEntry :=
  match dp[i]? with
  | none => none
  | some e =>
    if e.TotalItems ≠ -1 then
      if bestSolution.TotalItems = -1 ∨
          e.TotalItems < bestSolution.TotalItems ∨
          (e.TotalItems = bestSolution.TotalItems ∧ e.TotalPacks < bestSolution.TotalPacks) then
        some e
      else some bestSolution
    else some bestSolution

/-- The final scan: `for i := orderSize; i <= maxSize; i++`, for `orderSize > 0`. -/
def scan (orderSize maxSize : Int) (dp : List DPEntry) : Option DPEntry :=
  (List.range' orderSize.toNat (maxSize + 1 - orderSize).toNat).foldlM (pick dp) noSolution

/-- The largest value of a 64-bit Go `int`. -/
def maxInt : Int := 9223372036854775807

/-- The value a 64-bit Go `int` holds after an addition whose exact result is
`x`: two's complement wrap-around into `[-2^63, 2^63)`. -/
def wrapInt (x : Int) : Int :=
  (x + 9223372036854775808) % 18446744073709551616 - 9223372036854775808

/-- The largest length `make` accepts for a slice of table cells on a 64-bit
platform: the runtime refuses (`makeslice: len out of range`) a slice of more
than `2^48` bytes, and a cell of two `int`s and a map takes 24 bytes, so the
limit is `2^48 / 24` rounded down. -/
def maxTableLen : Int := 11728124029610

/-- The table after `make([]models.DPEntry, maxSize+1)` and the initialisation
loop, with `dp[0]` set. The length `maxSize+1` is a Go `int`; `make` panics
when it is negative or exceeds `maxTableLen`. -/
def initTable (maxSize : Int) : Option (List DPEntry) :=
  if wrapInt (maxSize + 1) < 0 ∨ maxTableLen < wrapInt (maxSize + 1) then none
  else
    match List.replicate (wrapInt (maxSize + 1)).toNat impossibleEntry with
    | [] => none
    | _ :: rest => some (zeroEntry :: rest)

/-- `Calculator.CalculateOptimalPacks`. -/
def CalculateOptimalPacks (orderSize : Int) (packSizes : List Int) :
    Option CalculationResponse :=
  if orderSize ≤ 0 then
    some { Packs := some [], TotalItems := 0, TotalPacks := 0 }
  else
    match packSizes with
    | [] => none
    | first :: _ =>
      let maxSize := wrapInt (orderSize + first)
      match initTable maxSize with
      | none => none
      | some dp0 =>
        match fillTable orderSize packSizes maxSize dp0 with
        | none => none
        | some dp =>
          match scan orderSize maxSize dp with
          | none => none
          | some bestSolution =>
            some { Packs := bestSolution.Packs
                   TotalItems := bestSolution.TotalItems
                   TotalPacks := bestSolution.TotalPacks }


/-! ## The calculation service and its memo -/

/-- Decimal digits of a natural number, most significant first, as `%d`
prints them. -/
def fmtNat (n : Nat) : List Char :=
  if n = 0 then ['0'] else ((Nat.digits 10 n).map Nat.digitChar).reverse

/-- The verb `%d` of `fmt` on an `int`. -/
def fmtInt : Int → List Char
  | Int.ofNat n => fmtNat n
  | Int.negSucc n => '-' :: fmtNat (n + 1)

/-- The elements of a slice as `%v` prints them between the brackets:
separated by one space. -/
def fmtElems : List Int → List Char
  | [] => []
  | [x] => fmtInt x
  | x :: y :: rest => fmtInt x ++ ' ' :: fmtElems (y :: rest)

/-- The verb `%v` of `fmt` on an `[]int`. -/
def fmtSlice (l : List Int) : List Char := '[' :: fmtElems l ++ [']']

/-- `Cache.generateKey`: `fmt.Sprintf("%d_%v", orderSize, packSizes)`. -/
def generateKey (orderSize : Int) (packSizes : List Int) : String :=
  String.mk (fmtInt orderSize ++ '_' :: fmtSlice packSizes)

/-- The memo `map[string]*models.CalculationResponse`, as an association list
with at most one entry per key. -/
abbrev Cache := List (String × CalculationResponse)

/-- `NewCache`. -/
def NewCache : Cache := []

/-- `Cache.Get`: the stored result, or `none` when the key is absent. -/
def Cache.Get (c : Cache) (orderSize : Int) (packSizes : List Int) :
    Option CalculationResponse :=
  c.lookup (generateKey orderSize packSizes)

/-- `Cache.Set`: `c.cache[key] = result`. -/
def Cache.Set (c : Cache) (orderSize : Int) (packSizes : List Int)
    (result : CalculationResponse) : Cache :=
  (generateKey orderSize packSizes, result) ::
    c.filter (fun e => e.1 != generateKey orderSize packSizes)

/-- `Cache.Clear`. -/
def Cache.Clear (_c : Cache) : Cache := []

/-- `sort.Sort(sort.Reverse(sort.IntSlice(sizes)))`: the slice rearranged in
non-increasing order. -/
def sortDescending (sizes : List Int) : List Int :=
  sizes.insertionSort (fun a b => b ≤ a)

/-- `calculator.Service`: the stored configuration and the memo. -/
structure Service where
  packSizes : List Int
  cache : Cache

/-- `Service.SetPackSizes`. -/
def Service.SetPackSizes (s : Service) (sizes : List Int) : Service :=
  { packSizes := sortDescending sizes, cache := Cache.Clear s.cache }

/-- `NewService`. -/
def NewService (defaultPackSizes : List Int) : Service :=
  Service.SetPackSizes { packSizes := [], cache := NewCache } defaultPackSizes

/-- `Service.GetPackSizes`. -/
def Service.GetPackSizes (s : Service) : List Int := s.packSizes

/-- `Service.CalculatePacks`: the service after the call, and the returned
response (`none` when the optimiser panics). -/
def Service.CalculatePacks (s : Service) (orderSize : Int) :
    Service × Option CalculationResponse :=
  let packSizes := s.packSizes
  match Cache.Get s.cache orderSize packSizes with
  | some cached => (s, some cached)
  | none =>
    match CalculateOptimalPacks orderSize packSizes with
    | none => (s, none)
    | some result =>
      ({ s with cache := Cache.Set s.cache orderSize packSizes result }, some result)

/-- `Service.ValidatePackSizes`: `none` for the `nil` error, otherwise the
message of the error. -/
def Service.ValidatePackSizes (_s : Service) : List Int → Option String
  | [] => none
  | size :: rest =>
    if size ≤ 0 then
      some (String.mk ("pack sizes must be positive, got: ".data ++ fmtInt size))
    else Service.ValidatePackSizes _s rest

/-- `models.APIResponse`, without the `Data` field the update handler never sets. -/
structure APIResponse where
  Success : Bool
  Error : String
  PackSizes : List Int
  deriving DecidableEq, Repr

/-- `Handler.handleUpdatePackSizes` on a request whose body decodes to `body`
(`none`: the body does not decode). Returns the service after the request, the
HTTP status and the response. -/
def handleUpdatePackSizes (s : Service) (body : Option (List Int)) :
    Service × Nat × APIResponse :=
  match body with
  | none => (s, 400, { Success := false, Error := "Invalid request body", PackSizes := [] })
  | some sizes =>
    match Service.ValidatePackSizes s sizes with
    | some err => (s, 400, { Success := false, Error := err, PackSizes := [] })
    | none =>
      (Service.SetPackSizes s sizes, 200,
        { Success := true, Error := "", PackSizes := sortDescending sizes })

/-- A call made on the service by a client. -/
inductive Call where
  | setPackSizes (sizes : List Int)
  | calculatePacks (orderSize : Int)

/-- The service after one call. -/
def Service.step (s : Service) : Call → Service
  | Call.setPackSizes sizes => Service.SetPackSizes s sizes
  | Call.calculatePacks orderSize => (Service.CalculatePacks s orderSize).1

/-- The service after a sequence of calls. -/
def Service.run (s : Service) (calls : List Call) : Service :=
  calls.foldl Service.step s

/-- Every memo entry of the service was computed by the optimiser under the
configuration the service holds now. -/
def CacheSound (s : Service) : Prop :=
  ∀ key v, (key, v) ∈ s.cache →
    ∃ o, key = generateKey o s.packSizes ∧ CalculateOptimalPacks o s.packSizes = some v

/-! ## The standalone calculator of `main.go`

The second copy of the algorithm, inlined in `PackCalculator.CalculatePacks`
together with its own memo. Embedded from `main.go`, loop by loop, over that
file's own `dpEntry` and `CalculationResponse`. -/

namespace Main

/-- `CalculationResponse` of package `main`. -/
structure CalculationResponse where
  Packs : Option PackMap
  TotalItems : Int
  TotalPacks : Int
  deriving DecidableEq, Repr

/-- `dpEntry`. -/
structure dpEntry where
  totalItems : Int
  totalPacks : Int
  packs : Option PackMap
  deriving DecidableEq, Repr

/-- `PackCalculator`: the stored pack sizes and the memo. -/
structure PackCalculator where
  packSizes : List Int
  cache : List (String × CalculationResponse)

/-- `NewPackCalculator`. -/
def NewPackCalculator : PackCalculator :=
  { packSizes := [250, 500, 1000, 2000, 5000], cache := [] }

/-- `PackCalculator.SetPackSizes`. -/
def PackCalculator.SetPackSizes (_pc : PackCalculator) (sizes : List Int) : PackCalculator :=
  { packSizes := sortDescending sizes, cache := [] }

/-- `PackCalculator.GetPackSizes`. -/
def PackCalculator.GetPackSizes (pc : PackCalculator) : List Int := pc.packSizes

/-- Read `dp[k]` for an `int` index `k`; `none` when out of range. -/
def readAt (dp : List dpEntry) (k : Int) : Option dpEntry :=
  if 0 ≤ k then dp[k.toNat]? else none

/-- Body of the inner fill loop of `CalculatePacks`, for table index `i` and
one `packSize`. -/
def relax (orderSize : Int) (i : Nat) (dp : List dpEntry) (packSize : Int) :
    Option (List dpEntry) :=
  if packSize ≤ (i : Int) then
    match readAt dp ((i : Int) - packSize) with
    | none => none
    | some prev =>
      if prev.totalItems ≠ -1 then
        let newTotalItems := prev.totalItems + packSize
        let newTotalPacks := prev.totalPacks + 1
        match dp[i]? with
        | none => none
        | some cur =>
          if cur.totalItems = -1 ∨
              ((i : Int) ≥ orderSize ∧ newTotalItems < cur.totalItems) ∨
              ((i : Int) ≥ orderSize ∧ newTotalItems = cur.totalItems ∧
                newTotalPacks < cur.totalPacks) then
            some (dp.set i
              { totalItems := newTotalItems
                totalPacks := newTotalPacks
                packs := some (PackMap.incr packSize (entriesOf prev.packs)) })
          else some dp
      else some dp
  else some dp

/-- One iteration of the outer fill loop: `for _, packSize := range pc.packSizes`. -/
def fillRow (orderSize : Int) (packSizes : List Int) (dp : List dpEntry) (i : Nat) :
    Option (List dpEntry) :=
  packSizes.foldlM (relax orderSize i) dp

/-- The fill phase: `for i := 1; i <= maxSize; i++`. -/
def fillTable (orderSize : Int) (packSizes : List Int) (maxSize : Int)
    (dp : List dpEntry) : Option (List dpEntry) :=
  (List.range' 1 maxSize.toNat).foldlM (fillRow orderSize packSizes) dp

/-- Body of the final scan for index `i`. -/
def pick (dp : List dpEntry) (bestSolution : dpEntry) (i : Nat) : Option dpEntry :=
  match dp[i]? with
  | none => none
  | some e =>
    if e.totalItems ≠ -1 then
      if bestSolution.totalItems = -1 ∨
          e.totalItems < bestSolution.totalItems ∨
          (e.totalItems = bestSolution.totalItems ∧ e.totalPacks < bestSolution.totalPacks) then
        some e
      else some bestSolution
    else some bestSolution

/-- The final scan: `for i := orderSize; i <= maxSize; i++`, starting from
`bestSolution := dpEntry{totalItems: -1}`. -/
def scan (orderSize maxSize : Int) (dp : List dpEntry) : Option dpEntry :=
  (List.range' orderSize.toNat (maxSize + 1 - orderSize).toNat).foldlM (pick dp)
    { totalItems := -1, totalPacks := 0, packs := none }

/-- The table after `make([]dpEntry, maxSize+1)` and the initialisation loop,
with `dp[0]` set. The length `maxSize+1` is a Go `int`; `make` panics when it
is negative or exceeds `maxTableLen` (a `dpEntry` takes 24 bytes as well). -/
def initTable (maxSize : Int) : Option (List dpEntry) :=
  if wrapInt (maxSize + 1) < 0 ∨ maxTableLen < wrapInt (maxSize + 1) then none
  else
    match List.replicate (wrapInt (maxSize + 1)).toNat
        ({ totalItems := -1, totalPacks := 0, packs := some [] } : dpEntry) with
    | [] => none
    | _ :: rest => some ({ totalItems := 0, totalPacks := 0, packs := some [] } :: rest)

/-- The memo key of `CalculatePacks`: `fmt.Sprintf("%d_%v", orderSize, pc.packSizes)`. -/
def cacheKey (orderSize : Int) (packSizes : List Int) : String :=
  String.mk (fmtInt orderSize ++ '_' :: fmtSlice packSizes)

/-- The assignment `pc.cache[cacheKey] = result`. -/
def store (cache : List (String × CalculationResponse)) (key : String)
    (result : CalculationResponse) : List (String × CalculationResponse) :=
  (key, result) :: cache.filter (fun e => e.1 != key)

/-- `PackCalculator.CalculatePacks`: the calculator after the call, and the
returned response (`none` when the call panics). -/
def PackCalculator.CalculatePacks (pc : PackCalculator) (orderSize : Int) :
    PackCalculator × Option CalculationResponse :=
  match pc.cache.lookup (cacheKey orderSize pc.packSizes) with
  | some cached => (pc, some cached)
  | none =>
    if orderSize ≤ 0 then
      ({ pc with cache := store pc.cache (cacheKey orderSize pc.packSizes)
                    { Packs := some [], TotalItems := 0, TotalPacks := 0 } },
        some { Packs := some [], TotalItems := 0, TotalPacks := 0 })
    else
      match pc.packSizes with
      | [] => (pc, none)
      | first :: _ =>
        let maxSize := wrapInt (orderSize + first)
        match initTable maxSize with
        | none => (pc, none)
        | some dp0 =>
          match fillTable orderSize pc.packSizes maxSize dp0 with
          | none => (pc, none)
          | some dp =>
            match scan orderSize maxSize dp with
            | none => (pc, none)
            | some bestSolution =>
              ({ pc with cache := store pc.cache (cacheKey orderSize pc.packSizes)
                            { Packs := bestSolution.packs
                              TotalItems := bestSolution.totalItems
                              TotalPacks := bestSolution.totalPacks } },
                some { Packs := bestSolution.packs
                       TotalItems := bestSolution.totalItems
                       TotalPacks := bestSolution.totalPacks })

/-- A table cell of `main.go` read as a `models.DPEntry`. -/
def toModel (e : dpEntry) : DPEntry :=
  { TotalItems := e.totalItems, TotalPacks := e.totalPacks, Packs := e.packs }

end Main

/-- The three fields of a response of the optimiser. -/
def responseFields (r : CalculationResponse) : Option PackMap × Int × Int :=
  (r.Packs, r.TotalItems, r.TotalPacks)

/-- The three fields of a response of the standalone calculator. -/
def Main.responseFields (r : Main.CalculationResponse) : Option PackMap × Int × Int :=
  (r.Packs, r.TotalItems, r.TotalPacks)

/-- An operation on the memo. -/
inductive CacheOp where
  | get (orderSize : Int) (packSizes : List Int)
  | set (orderSize : Int) (packSizes : List Int) (result : CalculationResponse)
  | clear

/-- The memo after one operation; `Get` leaves it as it is. -/
def Cache.apply (c : Cache) : CacheOp → Cache
  | CacheOp.get _ _ => c
  | CacheOp.set orderSize packSizes result => Cache.Set c orderSize packSizes result
  | CacheOp.clear => Cache.Clear c

/-- The memo after a sequence of operations, earliest first. -/
def Cache.run (c : Cache) (ops : List CacheOp) : Cache :=
  ops.foldl Cache.apply c

/-- The lookup the specification describes, over the operations listed latest
first: the value of the most recent `Set` with exactly this order size and this
pack-size sequence, provided no `Clear` came after it. -/
def mostRecentSet (orderSize : Int) (packSizes : List Int) :
    List CacheOp → Option CalculationResponse
  | [] => none
  | CacheOp.clear :: _ => none
  | CacheOp.get _ _ :: earlier => mostRecentSet orderSize packSizes earlier
  | CacheOp.set o ps result :: earlier =>
    if o = orderSize ∧ ps = packSizes then some result
    else mostRecentSet orderSize packSizes earlier

/-! ## Notions used to state the properties -/

/-- The updated cell `dp[i]` after the inner-loop body for one `packSize`, as
a function of the current cell `cur` and of the table the body reads from. -/
def relaxEntry (orderSize : Int) (i : Nat) (dp : List DPEntry) (cur : DPEntry)
    (packSize : Int) : DPEntry :=
  if packSize ≤ (i : Int) then
    match readAt dp ((i : Int) - packSize) with
    | none => cur
    | some prev =>
      if prev.TotalItems ≠ -1 then
        if cur.TotalItems = -1 ∨
            ((i : Int) ≥ orderSize ∧ prev.TotalItems + packSize < cur.TotalItems) ∨
            ((i : Int) ≥ orderSize ∧ prev.TotalItems + packSize = cur.TotalItems ∧
              prev.TotalPacks + 1 < cur.TotalPacks) then
          { TotalItems := prev.TotalItems + packSize
            TotalPacks := prev.TotalPacks + 1
            Packs := some (PackMap.incr packSize (entriesOf prev.Packs)) }
        else cur
      else cur
  else cur

/-- The candidate the inner-loop body builds from `prev = dp[i-packSize]`:
the previous solution with one more pack of `packSize`. -/
def addPack (packSize : Int) (prev : DPEntry) : DPEntry :=
  { TotalItems := prev.TotalItems + packSize
    TotalPacks := prev.TotalPacks + 1
    Packs := some (PackMap.incr packSize (entriesOf prev.Packs)) }

/-- The cell at an amount `n` below `orderSize`, where the first candidate
found is never displaced: the first pack size, in list order, whose
predecessor cell is marked, added to that predecessor. The first argument
bounds the recursion depth; `n` itself is enough. -/
def firstFit (packSizes : List Int) : Nat → Int → DPEntry
  | 0, _ => zeroEntry
  | fuel + 1, n =>
    if n = 0 then zeroEntry
    else
      match packSizes.find? (fun p =>
          decide (p ≤ n) && decide ((firstFit packSizes fuel (n - p)).TotalItems ≠ -1)) with
      | none => impossibleEntry
      | some p => addPack p (firstFit packSizes fuel (n - p))

/-- A combination of packs: a list (multiset) of sizes, each drawn from
`packSizes`, repetition allowed. -/
def Combo (packSizes : List Int) (l : List Int) : Prop := ∀ x ∈ l, x ∈ packSizes

/-- The amount `t` is a sum of elements of `packSizes` with repetition. -/
def Reachable (packSizes : List Int) (t : Int) : Prop :=
  ∃ l : List Int, Combo packSizes l ∧ l.sum = t

/-- What a filled table cell at index `i` looks like: either it carries the
`-1` mark, or its total is `i` and is witnessed both by its pack map and by a
combination of `TotalPacks` packs. -/
def CellOK (packSizes : List Int) (i : Nat) (e : DPEntry) : Prop :=
  e.TotalItems = -1 ∨
    (e.TotalItems = (i : Int) ∧
      (∃ m, e.Packs = some m ∧ PackMap.items m = (i : Int) ∧ PackMap.count m = e.TotalPacks ∧
        ∀ kv ∈ m, kv.1 ∈ packSizes ∧ 0 < kv.2) ∧
      ∃ l, Combo packSizes l ∧ l.sum = (i : Int) ∧ (l.length : Int) = e.TotalPacks)

/-- The recurrence a filled table satisfies at row `i`. -/
def RowDone (orderSize : Int) (packSizes : List Int) (dp : List DPEntry) (i : Nat) : Prop :=
  dp[i]? = some (packSizes.foldl (relaxEntry orderSize i dp) impossibleEntry)

/-- The state of the table when rows `1 .. s-1` have been filled. -/
structure FilledUpTo (orderSize : Int) (packSizes : List Int) (len : Nat)
    (dp : List DPEntry) (s : Nat) : Prop where
  length_eq : dp.length = len
  zero : dp[0]? = some zeroEntry
  done : ∀ i, 1 ≤ i → i < s → i < len → RowDone orderSize packSizes dp i
  rest : ∀ i, s ≤ i → i < len → dp[i]? = some impossibleEntry

/-! ## The pack map -/

theorem PackMap.items_incr (k : Int) (m : PackMap) :
    PackMap.items (PackMap.incr k m) = PackMap.items m + k := by
  induction m with
  | nil => simp [PackMap.incr, PackMap.items]
  | cons hd tl ih =>
    obtain ⟨k', v⟩ := hd
    unfold PackMap.incr
    split_ifs with h1 h2
    · subst h1; simp [PackMap.items]; ring
    · simp [PackMap.items]; ring
    · simp only [PackMap.items, List.map_cons, List.sum_cons] at ih ⊢
      rw [ih]; ring

theorem PackMap.count_incr (k : Int) (m : PackMap) :
    PackMap.count (PackMap.incr k m) = PackMap.count m + 1 := by
  induction m with
  | nil => simp [PackMap.incr, PackMap.count]
  | cons hd tl ih =>
    obtain ⟨k', v⟩ := hd
    unfold PackMap.incr
    split_ifs with h1 h2
    · simp [PackMap.count]; ring
    · simp [PackMap.count]; ring
    · simp only [PackMap.count, List.map_cons, List.sum_cons] at ih ⊢
      rw [ih]; ring

theorem PackMap.forall_incr (P : Int → Prop) (k : Int) (m : PackMap)
    (hm : ∀ e ∈ m, P e.1 ∧ 0 < e.2) (hk : P k) :
    ∀ e ∈ PackMap.incr k m, P e.1 ∧ 0 < e.2 := by
  induction m with
  | nil => intro e he; simp [PackMap.incr] at he; subst he; exact ⟨hk, by simp⟩
  | cons hd tl ih =>
    obtain ⟨k', v⟩ := hd
    have hhd := hm (k', v) (List.mem_cons_self _ _)
    have htl : ∀ e ∈ tl, P e.1 ∧ 0 < e.2 := fun e he => hm e (List.mem_cons_of_mem _ he)
    intro e he
    unfold PackMap.incr at he
    split_ifs at he with h1 h2
    · rcases List.mem_cons.1 he with h | h
      · subst h; exact ⟨hhd.1, by have := hhd.2; simp at this ⊢; omega⟩
      · exact htl e h
    · rcases List.mem_cons.1 he with h | h
      · subst h; exact ⟨hk, by simp⟩
      · exact hm e h
    · rcases List.mem_cons.1 he with h | h
      · subst h; exact hhd
      · exact ih htl e h


/-! ## One cell of the fill phase -/

theorem readAt_of_lt {dp : List DPEntry} {i : Nat} {p : Int} (hp : 0 < p) (hpi : p ≤ (i : Int))
    (hi : i < dp.length) : ∃ prev, readAt dp ((i : Int) - p) = some prev ∧
      dp[((i : Int) - p).toNat]? = some prev ∧ ((i : Int) - p).toNat < i := by
  have h1 : ((i : Int) - p).toNat < i := by omega
  have h2 : ((i : Int) - p).toNat < dp.length := by omega
  refine ⟨dp[((i : Int) - p).toNat], ?_, ?_, h1⟩
  · unfold readAt
    rw [if_pos (by omega)]
    exact List.getElem?_eq_getElem h2
  · exact List.getElem?_eq_getElem h2

theorem readAt_congr {dp dp' : List DPEntry} {i : Nat} {p : Int} (hp : 0 < p)
    (h : ∀ j, j < i → dp[j]? = dp'[j]?) :
    readAt dp ((i : Int) - p) = readAt dp' ((i : Int) - p) := by
  unfold readAt
  by_cases h0 : 0 ≤ (i : Int) - p
  · rw [if_pos h0, if_pos h0]
    exact h _ (by omega)
  · rw [if_neg h0, if_neg h0]

theorem relaxEntry_congr {dp dp' : List DPEntry} (orderSize : Int) {i : Nat} (cur : DPEntry)
    {p : Int} (hp : 0 < p) (h : ∀ j, j < i → dp[j]? = dp'[j]?) :
    relaxEntry orderSize i dp cur p = relaxEntry orderSize i dp' cur p := by
  unfold relaxEntry
  rw [readAt_congr hp h]

theorem foldl_relaxEntry_congr {dp dp' : List DPEntry} (orderSize : Int) {i : Nat}
    (h : ∀ j, j < i → dp[j]? = dp'[j]?) (ps : List Int) (hps : ∀ p ∈ ps, 0 < p)
    (cur : DPEntry) :
    ps.foldl (relaxEntry orderSize i dp) cur = ps.foldl (relaxEntry orderSize i dp') cur := by
  induction ps generalizing cur with
  | nil => rfl
  | cons p ps ih =>
    simp only [List.foldl_cons]
    rw [relaxEntry_congr orderSize cur (hps p (List.mem_cons_self _ _)) h]
    exact ih (fun q hq => hps q (List.mem_cons_of_mem _ hq)) _

theorem relax_eq (orderSize : Int) {i : Nat} {dp : List DPEntry} {p : Int} (hp : 0 < p)
    (hi : i < dp.length) (cur : DPEntry) :
    relax orderSize i (dp.set i cur) p
      = some (dp.set i (relaxEntry orderSize i dp cur p)) := by
  have hlen : i < (dp.set i cur).length := by simpa using hi
  have hcur : (dp.set i cur)[i]? = some cur := by
    simp [List.getElem?_set, hi]
  have hcongr : ∀ j, j < i → (dp.set i cur)[j]? = dp[j]? := by
    intro j hj
    rw [List.getElem?_set]
    simp [Nat.ne_of_gt hj]
  unfold relax relaxEntry
  by_cases hpi : p ≤ (i : Int)
  · rw [if_pos hpi, if_pos hpi, readAt_congr hp hcongr]
    obtain ⟨prev, hprev, -, -⟩ := readAt_of_lt hp hpi hi
    rw [hprev]
    simp only [hcur]
    by_cases hr : prev.TotalItems ≠ -1
    · rw [if_pos hr, if_pos hr]
      split_ifs with hc
      · simp
      · simp
    · rw [if_neg hr, if_neg hr]
  · rw [if_neg hpi, if_neg hpi]

theorem fillRow_set (orderSize : Int) {i : Nat} {dp : List DPEntry} (hi : i < dp.length)
    (ps : List Int) (hps : ∀ p ∈ ps, 0 < p) (cur : DPEntry) :
    fillRow orderSize ps (dp.set i cur) i
      = some (dp.set i (ps.foldl (relaxEntry orderSize i dp) cur)) := by
  induction ps generalizing cur with
  | nil => simp [fillRow]
  | cons p ps ih =>
    have h := ih (fun q hq => hps q (List.mem_cons_of_mem _ hq))
    unfold fillRow at h ⊢
    rw [List.foldlM_cons, relax_eq orderSize (hps p (List.mem_cons_self _ _)) hi cur]
    simp only [Option.bind_eq_bind, Option.some_bind, List.foldl_cons]
    exact h _

theorem fillRow_eq (orderSize : Int) {i : Nat} {dp : List DPEntry} {cur : DPEntry}
    (hcur : dp[i]? = some cur) (ps : List Int) (hps : ∀ p ∈ ps, 0 < p) :
    fillRow orderSize ps dp i
      = some (dp.set i (ps.foldl (relaxEntry orderSize i dp) cur)) := by
  have hi : i < dp.length := by
    by_contra hcon
    rw [List.getElem?_eq_none (by omega)] at hcur
    exact absurd hcur (by simp)
  have hself : dp.set i cur = dp := by
    apply List.ext_getElem?
    intro j
    rw [List.getElem?_set]
    split_ifs with h1
    · subst h1; exact hcur.symm
    · rfl
  have := fillRow_set orderSize hi ps hps cur
  rwa [hself] at this

/-! ## What one row computes -/

theorem relaxEntry_spec (orderSize : Int) {ps : List Int} {i : Nat} {dp : List DPEntry}
    (hi : i < dp.length)
    (H : ∀ j, j < i → ∀ e, dp[j]? = some e → CellOK ps j e)
    {cur : DPEntry} (hcur : CellOK ps i cur) {p : Int} (hmem : p ∈ ps) (hp : 0 < p) :
    CellOK ps i (relaxEntry orderSize i dp cur p) ∧
      (cur.TotalItems ≠ -1 → (relaxEntry orderSize i dp cur p).TotalItems ≠ -1) ∧
      (∀ prev, p ≤ (i : Int) → dp[((i : Int) - p).toNat]? = some prev →
        prev.TotalItems ≠ -1 → (relaxEntry orderSize i dp cur p).TotalItems ≠ -1) := by
  unfold relaxEntry
  by_cases hpi : p ≤ (i : Int)
  · rw [if_pos hpi]
    obtain ⟨prev, hread, hget, hlt⟩ := readAt_of_lt hp hpi hi
    rw [hread]
    simp only
    by_cases hr : prev.TotalItems ≠ -1
    · rw [if_pos hr]
      have hprev := H _ hlt prev hget
      rcases hprev with hbad | ⟨hti, ⟨m, hm, hitems, hcount, hkeys⟩, l, hl, hsum, hlen⟩
      · exact absurd hbad hr
      have htoNat : ((((i : Int) - p).toNat : Nat) : Int) = (i : Int) - p :=
        Int.toNat_of_nonneg (by omega)
      have hnew : CellOK ps i
          { TotalItems := prev.TotalItems + p
            TotalPacks := prev.TotalPacks + 1
            Packs := some (PackMap.incr p (entriesOf prev.Packs)) } := by
        right
        refine ⟨by simp only; omega, ⟨PackMap.incr p m, ?_, ?_, ?_, ?_⟩, p :: l, ?_, ?_, ?_⟩
        · simp [hm, entriesOf]
        · rw [PackMap.items_incr, hitems]; omega
        · rw [PackMap.count_incr, hcount]
        · exact PackMap.forall_incr (fun k => k ∈ ps) p m hkeys hmem
        · intro x hx
          rcases List.mem_cons.1 hx with h | h
          · rw [h]; exact hmem
          · exact hl x h
        · rw [List.sum_cons, hsum]; omega
        · simp only [List.length_cons, Nat.cast_add, Nat.cast_one]; omega
      have hnewne : (prev.TotalItems + p) ≠ -1 := by omega
      split_ifs with hc
      · refine ⟨hnew, fun _ => hnewne, fun _ _ _ _ => hnewne⟩
      · refine ⟨hcur, fun h => h, fun _ _ _ _ => ?_⟩
        intro hneg
        exact hc (Or.inl hneg)
    · rw [if_neg hr]
      refine ⟨hcur, fun h => h, fun prev' _ hget' hr' => ?_⟩
      rw [hget] at hget'
      cases hget'
      exact absurd hr' hr
  · rw [if_neg hpi]
    exact ⟨hcur, fun h => h, fun _ h _ _ => absurd h hpi⟩

theorem foldl_relaxEntry_spec (orderSize : Int) {ps : List Int} {i : Nat} {dp : List DPEntry}
    (hi : i < dp.length)
    (H : ∀ j, j < i → ∀ e, dp[j]? = some e → CellOK ps j e)
    (qs : List Int) (hqs : ∀ q ∈ qs, q ∈ ps ∧ 0 < q) {cur : DPEntry} (hcur : CellOK ps i cur) :
    CellOK ps i (qs.foldl (relaxEntry orderSize i dp) cur) ∧
      (cur.TotalItems ≠ -1 → (qs.foldl (relaxEntry orderSize i dp) cur).TotalItems ≠ -1) ∧
      (∀ q ∈ qs, ∀ prev, q ≤ (i : Int) → dp[((i : Int) - q).toNat]? = some prev →
        prev.TotalItems ≠ -1 → (qs.foldl (relaxEntry orderSize i dp) cur).TotalItems ≠ -1) := by
  induction qs generalizing cur with
  | nil => exact ⟨hcur, fun h => h, fun q hq => absurd hq (List.not_mem_nil q)⟩
  | cons p qs ih =>
    have hp := hqs p (List.mem_cons_self _ _)
    obtain ⟨h1, h2, h3⟩ := relaxEntry_spec orderSize hi H hcur hp.1 hp.2
    obtain ⟨k1, k2, k3⟩ := ih (fun q hq => hqs q (List.mem_cons_of_mem _ hq)) h1
    simp only [List.foldl_cons]
    refine ⟨k1, fun h => k2 (h2 h), ?_⟩
    intro q hq prev hqi hget hr
    rcases List.mem_cons.1 hq with h | h
    · subst h
      exact k2 (h3 prev hqi hget hr)
    · exact k3 q h prev hqi hget hr

/-! ## The fill phase -/

/-- A sum that fits in a table length is not changed by the wrap-around. -/
theorem wrapInt_eq {x : Int} (h0 : 0 ≤ x) (h1 : x ≤ maxTableLen) : wrapInt x = x := by
  unfold maxTableLen at h1
  unfold wrapInt
  omega

theorem initTable_eq {maxSize : Int} (h : 0 ≤ maxSize) (hfit : maxSize + 1 ≤ maxTableLen) :
    initTable maxSize = some (zeroEntry :: List.replicate maxSize.toNat impossibleEntry) := by
  unfold initTable
  rw [wrapInt_eq (by omega) hfit, if_neg (by omega)]
  have : (maxSize + 1).toNat = maxSize.toNat + 1 := by omega
  rw [this, List.replicate_succ]

/-- A positive order and a positive first size, both Go `int`s, whose table
does not fit make `make` panic. -/
theorem initTable_overflow {orderSize first : Int} (ho : 0 < orderSize)
    (hfirst : 0 < first) (hio : orderSize ≤ maxInt) (hif : first ≤ maxInt)
    (hbig : ¬ orderSize + first + 1 ≤ maxTableLen) :
    initTable (wrapInt (orderSize + first)) = none := by
  unfold initTable
  rw [if_pos]
  unfold maxInt at hio hif
  unfold maxTableLen at hbig ⊢
  unfold wrapInt
  omega

theorem initTable_filled (orderSize : Int) (ps : List Int) (n : Nat) :
    FilledUpTo orderSize ps (n + 1) (zeroEntry :: List.replicate n impossibleEntry) 1 where
  length_eq := by simp
  zero := by simp
  done := by intro i h1 h2; omega
  rest := by
    intro i h1 h2
    obtain ⟨k, rfl⟩ : ∃ k, i = k + 1 := ⟨i - 1, by omega⟩
    rw [List.getElem?_cons_succ, List.getElem?_replicate]
    simp; omega

theorem fill_step {orderSize : Int} {ps : List Int} (hps : ∀ p ∈ ps, 0 < p) {len : Nat}
    {dp : List DPEntry} {s : Nat} (h : FilledUpTo orderSize ps len dp s) (hs : 1 ≤ s)
    (hlen : s < len) :
    ∃ dp', fillRow orderSize ps dp s = some dp' ∧ FilledUpTo orderSize ps len dp' (s + 1) := by
  have hcur := h.rest s (le_refl s) hlen
  refine ⟨_, fillRow_eq orderSize hcur ps hps, ?_⟩
  have hother : ∀ j, j ≠ s →
      (dp.set s (ps.foldl (relaxEntry orderSize s dp) impossibleEntry))[j]? = dp[j]? := by
    intro j hj
    rw [List.getElem?_set]
    simp [Ne.symm hj]
  constructor
  · simpa using h.length_eq
  · rw [hother 0 (by omega)]; exact h.zero
  · intro i h1 h2 h3
    unfold RowDone
    by_cases his : i = s
    · subst his
      rw [List.getElem?_set, if_pos rfl]
      simp only [h.length_eq, hlen, if_true]
      rw [foldl_relaxEntry_congr orderSize (fun j hj => hother j (by omega)) ps hps]
    · rw [hother i his]
      have := h.done i h1 (by omega) h3
      unfold RowDone at this
      rw [this, foldl_relaxEntry_congr orderSize (fun j hj => hother j (by omega)) ps hps]
  · intro i h1 h2
    rw [hother i (by omega)]
    exact h.rest i (by omega) h2

theorem fill_range {orderSize : Int} {ps : List Int} (hps : ∀ p ∈ ps, 0 < p) {len : Nat}
    (n : Nat) : ∀ (s : Nat) (dp : List DPEntry), 1 ≤ s → s + n ≤ len →
      FilledUpTo orderSize ps len dp s →
      ∃ dp', (List.range' s n).foldlM (fillRow orderSize ps) dp = some dp' ∧
        FilledUpTo orderSize ps len dp' (s + n) := by
  induction n with
  | zero => intro s dp _ _ h; exact ⟨dp, by simp, by simpa using h⟩
  | succ n ih =>
    intro s dp hs hlen h
    obtain ⟨dp1, h1, hf1⟩ := fill_step hps h hs (by omega)
    obtain ⟨dp2, h2, hf2⟩ := ih (s + 1) dp1 (by omega) (by omega) hf1
    refine ⟨dp2, ?_, ?_⟩
    · rw [List.range'_succ, List.foldlM_cons, h1]
      simpa using h2
    · have : s + (n + 1) = s + 1 + n := by omega
      rw [this]; exact hf2

/-- For positive pack sizes the fill phase runs to completion and leaves a
table in which every row satisfies the recurrence. -/
theorem fillTable_filled (orderSize : Int) {ps : List Int} (hps : ∀ p ∈ ps, 0 < p)
    (maxSize : Int) :
    ∃ dp, fillTable orderSize ps maxSize
        (zeroEntry :: List.replicate maxSize.toNat impossibleEntry) = some dp ∧
      FilledUpTo orderSize ps (maxSize.toNat + 1) dp (maxSize.toNat + 1) := by
  obtain ⟨dp, h1, h2⟩ := fill_range hps maxSize.toNat 1 _ (le_refl 1) (by omega)
    (initTable_filled orderSize ps maxSize.toNat)
  refine ⟨dp, ?_, ?_⟩
  · unfold fillTable; exact h1
  · have : 1 + maxSize.toNat = maxSize.toNat + 1 := by omega
    rw [this] at h2; exact h2

/-! ## Every cell of a filled table -/

theorem reachable_pred {ps : List Int} (hps : ∀ p ∈ ps, 0 < p) {t : Int} (ht : 0 < t)
    (h : Reachable ps t) : ∃ p ∈ ps, p ≤ t ∧ Reachable ps (t - p) := by
  obtain ⟨l, hl, hsum⟩ := h
  cases l with
  | nil => simp at hsum; omega
  | cons x l =>
    have hx : x ∈ ps := hl x (List.mem_cons_self _ _)
    have hl' : Combo ps l := fun y hy => hl y (List.mem_cons_of_mem _ hy)
    have hnn : 0 ≤ l.sum := List.sum_nonneg (fun y hy => le_of_lt (hps y (hl' y hy)))
    rw [List.sum_cons] at hsum
    exact ⟨x, hx, by omega, l, hl', by omega⟩

theorem filled_cells {orderSize : Int} {ps : List Int} (hps : ∀ p ∈ ps, 0 < p) {len : Nat}
    {dp : List DPEntry} (h : FilledUpTo orderSize ps len dp len) :
    ∀ i, i < len → ∃ e, dp[i]? = some e ∧ CellOK ps i e ∧
      (Reachable ps (i : Int) → e.TotalItems ≠ -1) := by
  intro i
  induction i using Nat.strong_induction_on with
  | _ i ih =>
    intro hi
    rcases Nat.eq_zero_or_pos i with h0 | hpos
    · subst h0
      refine ⟨zeroEntry, h.zero, Or.inr ⟨rfl, ⟨[], rfl, rfl, rfl, ?_⟩, [], ?_, rfl, rfl⟩, ?_⟩
      · intro kv hkv; exact absurd hkv (List.not_mem_nil kv)
      · intro x hx; exact absurd hx (List.not_mem_nil x)
      · intro _; simp [zeroEntry]
    · have hrow := h.done i hpos hi hi
      unfold RowDone at hrow
      have hi' : i < dp.length := by rw [h.length_eq]; exact hi
      have H : ∀ j, j < i → ∀ e, dp[j]? = some e → CellOK ps j e := by
        intro j hj e he
        obtain ⟨e', he', hok, -⟩ := ih j hj (by omega)
        rw [he] at he'; cases he'; exact hok
      obtain ⟨k1, -, k3⟩ := foldl_relaxEntry_spec orderSize hi' H ps
        (fun q hq => ⟨hq, hps q hq⟩) (Or.inl rfl : CellOK ps i impossibleEntry)
      refine ⟨_, hrow, k1, ?_⟩
      intro hreach
      obtain ⟨p, hp, hpi, hr⟩ := reachable_pred hps (by omega) hreach
      have hp0 := hps p hp
      obtain ⟨prev, hprev, hok, hcomp⟩ := ih ((i : Int) - p).toNat (by omega) (by omega)
      have hcast : ((((i : Int) - p).toNat : Nat) : Int) = (i : Int) - p :=
        Int.toNat_of_nonneg (by omega)
      rw [hcast] at hcomp
      exact k3 p hp prev hpi hprev (hcomp hr)

theorem cell_reachable {ps : List Int} {i : Nat} {e : DPEntry} (h : CellOK ps i e)
    (hne : e.TotalItems ≠ -1) : e.TotalItems = (i : Int) ∧ Reachable ps (i : Int) := by
  rcases h with h | ⟨h1, -, l, hl, hsum, -⟩
  · exact absurd h hne
  · exact ⟨h1, l, hl, hsum⟩

/-! ## The final scan -/

theorem pick_keep {ps : List Int} {dp : List DPEntry} {b e : DPEntry} {i : Nat}
    (hb : b.TotalItems ≠ -1) (hlt : b.TotalItems < (i : Int)) (he : dp[i]? = some e)
    (hok : CellOK ps i e) : pick dp b i = some b := by
  unfold pick
  rw [he]
  simp only
  by_cases hr : e.TotalItems ≠ -1
  · rw [if_pos hr]
    have := (cell_reachable hok hr).1
    rw [if_neg]
    rintro (h | h | ⟨h, -⟩)
    · exact hb h
    · omega
    · omega
  · rw [if_neg hr]

theorem scan_keep {ps : List Int} {dp : List DPEntry}
    (hcells : ∀ i, i < dp.length → ∃ e, dp[i]? = some e ∧ CellOK ps i e) {b : DPEntry}
    (hb : b.TotalItems ≠ -1) (n : Nat) : ∀ s : Nat, b.TotalItems < (s : Int) →
      s + n ≤ dp.length → (List.range' s n).foldlM (pick dp) b = some b := by
  induction n with
  | zero => intro s _ _; simp
  | succ n ih =>
    intro s hlt hlen
    obtain ⟨e, he, hok⟩ := hcells s (by omega)
    rw [List.range'_succ, List.foldlM_cons, pick_keep hb hlt he hok]
    simp only [Option.bind_eq_bind, Option.some_bind]
    exact ih (s + 1) (by push_cast; omega) (by omega)

theorem scan_first {ps : List Int} {dp : List DPEntry}
    (hcells : ∀ i, i < dp.length → ∃ e, dp[i]? = some e ∧ CellOK ps i e) (n : Nat) :
    ∀ s : Nat, s + n ≤ dp.length →
      ∃ r, (List.range' s n).foldlM (pick dp) noSolution = some r ∧
        ((r = noSolution ∧
            ∀ j e, s ≤ j → j < s + n → dp[j]? = some e → e.TotalItems = -1) ∨
          ∃ k, s ≤ k ∧ k < s + n ∧ dp[k]? = some r ∧ r.TotalItems ≠ -1 ∧
            ∀ j e, s ≤ j → j < k → dp[j]? = some e → e.TotalItems = -1) := by
  induction n with
  | zero =>
    intro s _
    exact ⟨noSolution, by simp, Or.inl ⟨rfl, fun j e h1 h2 => by omega⟩⟩
  | succ n ih =>
    intro s hlen
    obtain ⟨e, he, hok⟩ := hcells s (by omega)
    rw [List.range'_succ, List.foldlM_cons]
    by_cases hr : e.TotalItems ≠ -1
    · have hpick : pick dp noSolution s = some e := by
        unfold pick
        rw [he]
        simp only
        rw [if_pos hr]
        exact if_pos (Or.inl rfl)
      rw [hpick]
      simp only [Option.bind_eq_bind, Option.some_bind]
      have hti := (cell_reachable hok hr).1
      refine ⟨e, scan_keep hcells hr n (s + 1) (by push_cast; omega) (by omega), Or.inr ?_⟩
      exact ⟨s, le_refl s, by omega, he, hr, fun j e' h1 h2 => by omega⟩
    · have hpick : pick dp noSolution s = some noSolution := by
        unfold pick
        rw [he]
        simp only
        rw [if_neg hr]
      rw [hpick]
      simp only [Option.bind_eq_bind, Option.some_bind]
      obtain ⟨r, hr1, hr2⟩ := ih (s + 1) (by omega)
      refine ⟨r, hr1, ?_⟩
      have hs : ∀ j e', s ≤ j → j < s + 1 → dp[j]? = some e' → e'.TotalItems = -1 := by
        intro j e' h1 h2 hj
        have : j = s := by omega
        subst this
        rw [he] at hj; cases hj
        exact not_not.1 hr
      rcases hr2 with ⟨h1, h2⟩ | ⟨k, h1, h2, h3, h4, h5⟩
      · left
        refine ⟨h1, fun j e' hj1 hj2 hj => ?_⟩
        by_cases hjs : j < s + 1
        · exact hs j e' hj1 hjs hj
        · exact h2 j e' (by omega) (by omega) hj
      · right
        refine ⟨k, by omega, by omega, h3, h4, fun j e' hj1 hj2 hj => ?_⟩
        by_cases hjs : j < s + 1
        · exact hs j e' hj1 hjs hj
        · exact h5 j e' (by omega) hj2 hj

/-! ## The optimiser on valid input -/

theorem reachable_mul {ps : List Int} {p : Int} (hp : p ∈ ps) (c : Nat) :
    Reachable ps (p * (c : Int)) := by
  refine ⟨List.replicate c p, ?_, ?_⟩
  · intro x hx
    rw [List.eq_of_mem_replicate hx]; exact hp
  · rw [List.sum_replicate, nsmul_eq_mul]; ring

/-- Every pack size has a multiple in the window `[orderSize, orderSize + p)`. -/
theorem reachable_window {ps : List Int} {p : Int} (hp : p ∈ ps) (hpos : 0 < p)
    {orderSize : Int} (ho : 0 < orderSize) :
    ∃ t, orderSize ≤ t ∧ t < orderSize + p ∧ Reachable ps t := by
  have h1 := Int.emod_add_ediv (orderSize + p - 1) p
  have h2 := Int.emod_nonneg (orderSize + p - 1) (ne_of_gt hpos)
  have h3 := Int.emod_lt_of_pos (orderSize + p - 1) hpos
  have hq : 0 ≤ (orderSize + p - 1) / p := Int.ediv_nonneg (by omega) (le_of_lt hpos)
  refine ⟨p * ((orderSize + p - 1) / p), by omega, by omega, ?_⟩
  have := reachable_mul hp ((orderSize + p - 1) / p).toNat
  rwa [Int.toNat_of_nonneg hq] at this

/-- On valid input the optimiser returns the first marked cell at or after
`orderSize` of the filled table, and that cell lies below `orderSize + first`. -/
theorem calculate_valid {orderSize first : Int} {others : List Int} (ho : 0 < orderSize)
    (hps : ∀ p ∈ first :: others, 0 < p) (hfit : orderSize + first + 1 ≤ maxTableLen) :
    ∃ (dp : List DPEntry) (r : DPEntry) (k : Nat),
      fillTable orderSize (first :: others) (orderSize + first)
        (zeroEntry :: List.replicate (orderSize + first).toNat impossibleEntry) = some dp ∧
      FilledUpTo orderSize (first :: others) ((orderSize + first).toNat + 1) dp
        ((orderSize + first).toNat + 1) ∧
      CalculateOptimalPacks orderSize (first :: others)
        = some { Packs := r.Packs, TotalItems := r.TotalItems, TotalPacks := r.TotalPacks } ∧
      orderSize ≤ (k : Int) ∧ (k : Int) < orderSize + first ∧ dp[k]? = some r ∧
      r.TotalItems ≠ -1 ∧
      ∀ (j : Nat) (e : DPEntry), orderSize ≤ (j : Int) → j < k → dp[j]? = some e →
        e.TotalItems = -1 := by
  have hfirst : 0 < first := hps first (List.mem_cons_self _ _)
  obtain ⟨dp, hfill, hfilled⟩ := fillTable_filled orderSize hps (orderSize + first)
  have hlen : dp.length = (orderSize + first).toNat + 1 := hfilled.length_eq
  have hcells := filled_cells hps hfilled
  have hcells' : ∀ i, i < dp.length → ∃ e, dp[i]? = some e ∧ CellOK (first :: others) i e := by
    intro i hi
    obtain ⟨e, h1, h2, -⟩ := hcells i (by omega)
    exact ⟨e, h1, h2⟩
  obtain ⟨r, hscan, hres⟩ := scan_first hcells' (orderSize + first + 1 - orderSize).toNat
    orderSize.toNat (by omega)
  obtain ⟨t, ht1, ht2, ht3⟩ := reachable_window (List.mem_cons_self first others) hfirst ho
  obtain ⟨et, het, -, hetr⟩ := hcells t.toNat (by omega)
  have htcast : ((t.toNat : Nat) : Int) = t := Int.toNat_of_nonneg (by omega)
  rw [htcast] at hetr
  have hcalc : CalculateOptimalPacks orderSize (first :: others)
      = some { Packs := r.Packs, TotalItems := r.TotalItems, TotalPacks := r.TotalPacks } := by
    unfold CalculateOptimalPacks
    rw [if_neg (by omega)]
    simp only
    rw [wrapInt_eq (by omega) (by omega), initTable_eq (by omega) hfit]
    simp only
    rw [hfill]
    simp only
    unfold scan
    rw [hscan]
  rcases hres with ⟨-, hnone⟩ | ⟨k, hk1, hk2, hk3, hk4, hk5⟩
  · exact absurd (hnone t.toNat et (by omega) (by omega) het) (hetr ht3)
  · refine ⟨dp, r, k, hfill, hfilled, hcalc, by omega, ?_, hk3, hk4, ?_⟩
    · by_contra hcon
      exact absurd (hk5 t.toNat et (by omega) (by omega) het) (hetr ht3)
    · intro j e hj1 hj2 hj
      exact hk5 j e (by omega) hj2 hj

/-- On valid input the response is a cell of the filled table whose index is
the least reachable amount at or after `orderSize`. -/
theorem calculate_least {orderSize first : Int} {others : List Int} (ho : 0 < orderSize)
    (hps : ∀ p ∈ first :: others, 0 < p) (hfit : orderSize + first + 1 ≤ maxTableLen) :
    ∃ (r : DPEntry) (k : Nat),
      CalculateOptimalPacks orderSize (first :: others)
        = some { Packs := r.Packs, TotalItems := r.TotalItems, TotalPacks := r.TotalPacks } ∧
      orderSize ≤ (k : Int) ∧ (k : Int) < orderSize + first ∧ r.TotalItems = (k : Int) ∧
      CellOK (first :: others) k r ∧
      ∀ t, orderSize ≤ t → Reachable (first :: others) t → (k : Int) ≤ t := by
  obtain ⟨dp, r, k, -, hfilled, hcalc, hk1, hk2, hk3, hk4, hk5⟩ := calculate_valid ho hps hfit
  have hcells := filled_cells hps hfilled
  obtain ⟨e, he, hok, -⟩ := hcells k (by omega)
  rw [hk3] at he; cases he
  refine ⟨r, k, hcalc, hk1, hk2, (cell_reachable hok hk4).1, hok, ?_⟩
  intro t ht hreach
  by_contra hcon
  obtain ⟨et, het, -, hetr⟩ := hcells t.toNat (by omega)
  have htcast : ((t.toNat : Nat) : Int) = t := Int.toNat_of_nonneg (by omega)
  rw [htcast] at hetr
  exact hetr hreach (hk5 t.toNat et (by omega) (by omega) het)

/-! ## The claims about the optimiser -/

/-- The optimiser panics on the largest order with the single pack size 1:
the sum `orderSize + packSizes[0]` wraps around and `make` refuses the
negative length. -/
theorem calculate_maxInt_panics :
    CalculateOptimalPacks 9223372036854775807 [1] = none := by
  decide

/-- C1, as the code has it. On the order `9223372036854775807` with pack sizes
`[1]`, a positive order and a non-increasing list of positive sizes, the
optimiser panics in `make`, so it returns no response whose `TotalItems` could
be the least reachable amount. -/
theorem total_items_least_fails_on_overflow :
    (0 : Int) < 9223372036854775807 ∧ (∀ p ∈ [(1 : Int)], 0 < p) ∧
      [(1 : Int)].Pairwise (fun a b => b ≤ a) ∧
      CalculateOptimalPacks 9223372036854775807 [1] = none ∧
      ¬ ∃ r, CalculateOptimalPacks 9223372036854775807 [1] = some r ∧
        9223372036854775807 ≤ r.TotalItems ∧ Reachable [1] r.TotalItems := by
  refine ⟨by decide, by decide, by decide, calculate_maxInt_panics, ?_⟩
  rintro ⟨r, hr, -⟩
  rw [calculate_maxInt_panics] at hr
  exact absurd hr (by simp)

/-- C1, amended. For a positive order and a non-empty, non-increasing list of
positive pack sizes whose table of `orderSize + packSizes[0] + 1` cells can be
allocated, the optimiser returns a response whose `TotalItems` is at least the
order, is a sum of pack sizes with repetition, and is no larger than the total
of any combination of packs that covers the order. -/
theorem total_items_least (orderSize : Int) (packSizes : List Int) (ho : 0 < orderSize)
    (hne : packSizes ≠ []) (hpos : ∀ p ∈ packSizes, 0 < p)
    (_hord : packSizes.Pairwise (fun a b => b ≤ a))
    (hfit : orderSize + packSizes.head hne + 1 ≤ maxTableLen) :
    ∃ r, CalculateOptimalPacks orderSize packSizes = some r ∧
      orderSize ≤ r.TotalItems ∧ Reachable packSizes r.TotalItems ∧
      ∀ l, Combo packSizes l → orderSize ≤ l.sum → r.TotalItems ≤ l.sum := by
  cases packSizes with
  | nil => exact absurd rfl hne
  | cons first others =>
    obtain ⟨r, k, hcalc, hk1, -, hk3, hok, hmin⟩ := calculate_least ho hpos hfit
    refine ⟨_, hcalc, ?_, ?_, ?_⟩
    · simp only; omega
    · simp only
      rw [hk3]
      exact (cell_reachable hok (by omega)).2
    · intro l hl hsum
      simp only
      rw [hk3]
      exact hmin l.sum hsum ⟨l, hl, rfl⟩

theorem total_items_least_witness :
    ∃ r, CalculateOptimalPacks 12 [5, 4, 1] = some r ∧
      (12 : Int) ≤ r.TotalItems ∧ Reachable [5, 4, 1] r.TotalItems ∧
      ∀ l, Combo [5, 4, 1] l → 12 ≤ l.sum → r.TotalItems ≤ l.sum :=
  total_items_least 12 [5, 4, 1] (by decide) (by decide) (by decide) (by decide) (by decide)

/-- C2. On the order 12 with pack sizes `[5, 4, 1]` the optimiser returns
`{1:2, 5:2}`, 12 items in 4 packs, although the combination `4 + 4 + 4` reaches
the same 12 items with 3 packs: the returned pack count is not minimal. -/
theorem total_packs_not_least :
    CalculateOptimalPacks 12 [5, 4, 1]
        = some { Packs := some [(1, 2), (5, 2)], TotalItems := 12, TotalPacks := 4 } ∧
      Combo [5, 4, 1] [4, 4, 4] ∧ [4, 4, 4].sum = (12 : Int) ∧
      (([4, 4, 4] : List Int).length : Int) < 4 := by
  refine ⟨by decide, ?_, by decide, by decide⟩
  intro x hx
  simp only [List.mem_cons, List.mem_singleton, List.not_mem_nil, or_false, or_self] at hx
  subst hx
  decide

/-- C3, as the code has it. On the order `9223372036854775807` with pack sizes
`[1]` the optimiser panics in `make`: no response is returned and the order is
not fulfilled. -/
theorem order_fulfilled_fails_on_overflow :
    (0 : Int) < 9223372036854775807 ∧ (∀ p ∈ [(1 : Int)], 0 < p) ∧
      [(1 : Int)].Pairwise (fun a b => b ≤ a) ∧
      ¬ ∃ r, CalculateOptimalPacks 9223372036854775807 [1] = some r ∧
        9223372036854775807 ≤ r.TotalItems := by
  refine ⟨by decide, by decide, by decide, ?_⟩
  rintro ⟨r, hr, -⟩
  rw [calculate_maxInt_panics] at hr
  exact absurd hr (by simp)

/-- C3, amended. For a positive order and a non-empty, non-increasing list of
positive pack sizes whose table of `orderSize + packSizes[0] + 1` cells can be
allocated, the optimiser returns a response with `TotalItems ≥ orderSize`. -/
theorem order_fulfilled (orderSize : Int) (packSizes : List Int) (ho : 0 < orderSize)
    (hne : packSizes ≠ []) (hpos : ∀ p ∈ packSizes, 0 < p)
    (_hord : packSizes.Pairwise (fun a b => b ≤ a))
    (hfit : orderSize + packSizes.head hne + 1 ≤ maxTableLen) :
    ∃ r, CalculateOptimalPacks orderSize packSizes = some r ∧ orderSize ≤ r.TotalItems := by
  cases packSizes with
  | nil => exact absurd rfl hne
  | cons first others =>
    obtain ⟨r, k, hcalc, hk1, -, hk3, -, -⟩ := calculate_least ho hpos hfit
    exact ⟨_, hcalc, by simp only; omega⟩

theorem order_fulfilled_witness :
    ∃ r, CalculateOptimalPacks 251 [1000, 500, 250] = some r ∧ (251 : Int) ≤ r.TotalItems :=
  order_fulfilled 251 [1000, 500, 250] (by decide) (by decide) (by decide) (by decide)
    (by decide)

/-- C4, as the code has it. On the order `9223372036854775807` with pack sizes
`[1]` the optimiser panics in `make`: there is no response whose totals could
agree with its pack map. -/
theorem totals_agree_fails_on_overflow :
    (∀ p ∈ [(1 : Int)], 0 < p) ∧
      ¬ ∃ r, CalculateOptimalPacks 9223372036854775807 [1] = some r ∧
        r.TotalItems = PackMap.items (entriesOf r.Packs) ∧
        r.TotalPacks = PackMap.count (entriesOf r.Packs) := by
  refine ⟨by decide, ?_⟩
  rintro ⟨r, hr, -⟩
  rw [calculate_maxInt_panics] at hr
  exact absurd hr (by simp)

/-- C4, amended. For every order and every non-empty list of positive pack
sizes such that, when the order is positive, the table of `orderSize +
packSizes[0] + 1` cells can be allocated, the optimiser returns a response
whose `TotalItems` is the sum of `size * quantity` over the entries of `Packs`
and whose `TotalPacks` is the sum of the quantities. -/
theorem totals_agree_with_packs (orderSize : Int) (packSizes : List Int)
    (hne : packSizes ≠ []) (hpos : ∀ p ∈ packSizes, 0 < p)
    (hfit : 0 < orderSize → orderSize + packSizes.head hne + 1 ≤ maxTableLen) :
    ∃ r, CalculateOptimalPacks orderSize packSizes = some r ∧
      r.TotalItems = PackMap.items (entriesOf r.Packs) ∧
      r.TotalPacks = PackMap.count (entriesOf r.Packs) := by
  by_cases ho : orderSize ≤ 0
  · refine ⟨{ Packs := some [], TotalItems := 0, TotalPacks := 0 }, ?_, rfl, rfl⟩
    unfold CalculateOptimalPacks
    rw [if_pos ho]
  · cases packSizes with
    | nil => exact absurd rfl hne
    | cons first others =>
      have ho' : 0 < orderSize := by omega
      obtain ⟨r, k, hcalc, hk1, -, hk3, hok, -⟩ := calculate_least ho' hpos (hfit ho')
      rcases hok with hbad | ⟨-, ⟨m, hm, hitems, hcount, -⟩, -⟩
      · omega
      · refine ⟨_, hcalc, ?_, ?_⟩
        · simp only [hm, entriesOf, hitems, hk3]
        · simp only [hm, entriesOf, hcount]

theorem totals_agree_with_packs_witness :
    ∃ r, CalculateOptimalPacks 501 [250, 500, 1000] = some r ∧
      r.TotalItems = PackMap.items (entriesOf r.Packs) ∧
      r.TotalPacks = PackMap.count (entriesOf r.Packs) :=
  totals_agree_with_packs 501 [250, 500, 1000] (by decide) (by decide) (by decide)

/-- C5. For a non-positive order the optimiser returns the empty shipment
whatever the pack-size list is, the empty list included: the list is not
read. -/
theorem nonpositive_order_empty (orderSize : Int) (packSizes : List Int)
    (ho : orderSize ≤ 0) :
    CalculateOptimalPacks orderSize packSizes
      = some { Packs := some [], TotalItems := 0, TotalPacks := 0 } := by
  unfold CalculateOptimalPacks
  rw [if_pos ho]

theorem nonpositive_order_empty_witness :
    CalculateOptimalPacks (-10) []
      = some { Packs := some [], TotalItems := 0, TotalPacks := 0 } :=
  nonpositive_order_empty (-10) [] (by decide)

/-- For a positive order and a positive first size, both Go `int`s, whose
table cannot be allocated, the optimiser panics in `make`. -/
theorem calculate_overflow {orderSize first : Int} (others : List Int) (ho : 0 < orderSize)
    (hfirst : 0 < first) (hio : orderSize ≤ maxInt) (hif : first ≤ maxInt)
    (hbig : ¬ orderSize + first + 1 ≤ maxTableLen) :
    CalculateOptimalPacks orderSize (first :: others) = none := by
  unfold CalculateOptimalPacks
  rw [if_neg (by omega)]
  simp only
  rw [initTable_overflow ho hfirst hio hif hbig]

/-- C7. For a positive order and a non-increasing list `first :: others` of
positive pack sizes, all of them Go `int`s, some amount in `[orderSize,
orderSize + first]` is a sum of pack sizes, and the optimiser never returns the
`-1` mark or a response without a pack map: it returns a marked response
whenever its table can be allocated, and otherwise panics in `make`. -/
theorem solution_exists (orderSize first : Int) (others : List Int) (ho : 0 < orderSize)
    (hpos : ∀ p ∈ first :: others, 0 < p)
    (_hord : (first :: others).Pairwise (fun a b => b ≤ a))
    (hio : orderSize ≤ maxInt) (hip : ∀ p ∈ first :: others, p ≤ maxInt) :
    (∃ t, orderSize ≤ t ∧ t ≤ orderSize + first ∧ Reachable (first :: others) t) ∧
      (∀ r, CalculateOptimalPacks orderSize (first :: others) = some r →
        r.TotalItems ≠ -1 ∧ r.Packs ≠ none) ∧
      (orderSize + first + 1 ≤ maxTableLen →
        ∃ r, CalculateOptimalPacks orderSize (first :: others) = some r ∧
          r.TotalItems ≠ -1 ∧ r.Packs ≠ none) := by
  have hfirst : 0 < first := hpos first (List.mem_cons_self _ _)
  have hreturned : orderSize + first + 1 ≤ maxTableLen →
      ∃ r, CalculateOptimalPacks orderSize (first :: others) = some r ∧
        r.TotalItems ≠ -1 ∧ r.Packs ≠ none := by
    intro hfit
    obtain ⟨r, k, hcalc, hk1, hk2, hk3, hok, -⟩ := calculate_least ho hpos hfit
    have hne : r.TotalItems ≠ -1 := by omega
    refine ⟨_, hcalc, hne, ?_⟩
    rcases hok with hbad | ⟨-, ⟨m, hm, -⟩, -⟩
    · exact absurd hbad hne
    · simp [hm]
  refine ⟨?_, ?_, hreturned⟩
  · obtain ⟨t, ht1, ht2, ht3⟩ := reachable_window (List.mem_cons_self first others) hfirst ho
    exact ⟨t, ht1, le_of_lt ht2, ht3⟩
  · intro r hr
    by_cases hfit : orderSize + first + 1 ≤ maxTableLen
    · obtain ⟨r', hr', h1, h2⟩ := hreturned hfit
      rw [hr] at hr'
      cases hr'
      exact ⟨h1, h2⟩
    · rw [calculate_overflow others ho hfirst hio (hip first (List.mem_cons_self _ _)) hfit]
        at hr
      exact absurd hr (by simp)

theorem solution_exists_witness :
    (∃ t, (7 : Int) ≤ t ∧ t ≤ 7 + 5 ∧ Reachable (5 :: [3]) t) ∧
      (∀ r, CalculateOptimalPacks 7 (5 :: [3]) = some r →
        r.TotalItems ≠ -1 ∧ r.Packs ≠ none) ∧
      ((7 : Int) + 5 + 1 ≤ maxTableLen →
        ∃ r, CalculateOptimalPacks 7 (5 :: [3]) = some r ∧
          r.TotalItems ≠ -1 ∧ r.Packs ≠ none) :=
  solution_exists 7 5 [3] (by decide) (by decide) (by decide) (by decide) (by decide)

/-! ## Cells below the order size: the first candidate stays -/

theorem relaxEntry_marked_below {orderSize : Int} {i : Nat} (dp : List DPEntry)
    {cur : DPEntry} (p : Int) (hcur : cur.TotalItems ≠ -1) (hlt : (i : Int) < orderSize) :
    relaxEntry orderSize i dp cur p = cur := by
  unfold relaxEntry
  by_cases hpi : p ≤ (i : Int)
  · rw [if_pos hpi]
    cases hread : readAt dp ((i : Int) - p) with
    | none => rfl
    | some prev =>
      simp only
      by_cases hr : prev.TotalItems ≠ -1
      · rw [if_pos hr, if_neg]
        rintro (h | ⟨h, -⟩ | ⟨h, -⟩)
        · exact hcur h
        · omega
        · omega
      · rw [if_neg hr]
  · rw [if_neg hpi]

theorem foldl_relaxEntry_marked_below {orderSize : Int} {i : Nat} (dp : List DPEntry)
    (qs : List Int) {cur : DPEntry} (hcur : cur.TotalItems ≠ -1)
    (hlt : (i : Int) < orderSize) :
    qs.foldl (relaxEntry orderSize i dp) cur = cur := by
  induction qs with
  | nil => rfl
  | cons q qs ih => rw [List.foldl_cons, relaxEntry_marked_below dp q hcur hlt, ih]

theorem relaxEntry_first {orderSize : Int} {i : Nat} {dp : List DPEntry} {cur prev : DPEntry}
    {p : Int} (hcur : cur.TotalItems = -1) (hpi : p ≤ (i : Int))
    (hread : readAt dp ((i : Int) - p) = some prev) (hr : prev.TotalItems ≠ -1) :
    relaxEntry orderSize i dp cur p = addPack p prev := by
  unfold relaxEntry
  rw [if_pos hpi, hread]
  simp only
  rw [if_pos hr, if_pos (Or.inl hcur)]
  rfl

theorem relaxEntry_skip {orderSize : Int} {i : Nat} {dp : List DPEntry} {cur prev : DPEntry}
    {p : Int} (hread : readAt dp ((i : Int) - p) = some prev) (hr : prev.TotalItems = -1) :
    relaxEntry orderSize i dp cur p = cur := by
  unfold relaxEntry
  rw [hread]
  simp only
  rw [if_neg (not_not.2 hr)]
  simp

theorem relaxEntry_large {orderSize : Int} {i : Nat} {dp : List DPEntry} {cur : DPEntry}
    {p : Int} (hpi : ¬ p ≤ (i : Int)) : relaxEntry orderSize i dp cur p = cur := by
  unfold relaxEntry
  rw [if_neg hpi]

theorem foldl_relaxEntry_firstFit {orderSize : Int} {i : Nat} {dp : List DPEntry}
    (hlt : (i : Int) < orderSize) (g : Int → DPEntry) (qs : List Int)
    (hread : ∀ p ∈ qs, p ≤ (i : Int) → readAt dp ((i : Int) - p) = some (g p))
    (hnn : ∀ p ∈ qs, p ≤ (i : Int) → (g p).TotalItems ≠ -1 → 0 < p ∧ 0 ≤ (g p).TotalItems) :
    qs.foldl (relaxEntry orderSize i dp) impossibleEntry
      = match qs.find? (fun p => decide (p ≤ (i : Int)) && decide ((g p).TotalItems ≠ -1)) with
        | none => impossibleEntry
        | some p => addPack p (g p) := by
  induction qs with
  | nil => rfl
  | cons q qs ih =>
    have hq := hnn q (List.mem_cons_self _ _)
    rw [List.foldl_cons, List.find?_cons]
    by_cases hpi : q ≤ (i : Int)
    · have hrd := hread q (List.mem_cons_self _ _) hpi
      by_cases hr : (g q).TotalItems ≠ -1
      · have hpred : (decide (q ≤ (i : Int)) && decide ((g q).TotalItems ≠ -1)) = true := by
          simp [hpi, hr]
        rw [hpred, relaxEntry_first rfl hpi hrd hr]
        simp only
        apply foldl_relaxEntry_marked_below dp qs _ hlt
        have := hq hpi hr
        show (g q).TotalItems + q ≠ -1
        omega
      · have hpred : (decide (q ≤ (i : Int)) && decide ((g q).TotalItems ≠ -1)) = false := by
          simp [hr]
        rw [hpred, relaxEntry_skip hrd (not_not.1 hr)]
        simp only
        exact ih (fun p hp => hread p (List.mem_cons_of_mem _ hp))
          (fun p hp => hnn p (List.mem_cons_of_mem _ hp))
    · have hpred : (decide (q ≤ (i : Int)) && decide ((g q).TotalItems ≠ -1)) = false := by
        simp [hpi]
      rw [hpred, relaxEntry_large hpi]
      simp only
      exact ih (fun p hp => hread p (List.mem_cons_of_mem _ hp))
        (fun p hp => hnn p (List.mem_cons_of_mem _ hp))

/-- Below the order size every cell of a filled table is the first-fit cell. -/
theorem filled_firstFit {orderSize : Int} {ps : List Int} (hps : ∀ p ∈ ps, 0 < p) {len : Nat}
    {dp : List DPEntry} (h : FilledUpTo orderSize ps len dp len) :
    ∀ (i : Nat), i < len → (i : Int) < orderSize → ∀ fuel, i ≤ fuel →
      dp[i]? = some (firstFit ps fuel (i : Int)) := by
  have hcells := filled_cells hps h
  intro i
  induction i using Nat.strong_induction_on with
  | _ i ih =>
    intro hi hlt fuel hfuel
    rcases Nat.eq_zero_or_pos i with h0 | hpos
    · subst h0
      rw [h.zero]
      cases fuel with
      | zero => rfl
      | succ f => simp [firstFit]
    · obtain ⟨f, rfl⟩ : ∃ f, fuel = f + 1 := ⟨fuel - 1, by omega⟩
      have hrow := h.done i hpos hi hi
      unfold RowDone at hrow
      rw [hrow]
      have hi' : i < dp.length := by rw [h.length_eq]; exact hi
      have hprev : ∀ p ∈ ps, p ≤ (i : Int) →
          dp[((i : Int) - p).toNat]? = some (firstFit ps f ((i : Int) - p)) := by
        intro p hp hpi
        have hp0 := hps p hp
        have := ih ((i : Int) - p).toNat (by omega) (by omega)
          (by rw [Int.toNat_of_nonneg (by omega)]; omega) f (by omega)
        rwa [Int.toNat_of_nonneg (by omega)] at this
      have hread : ∀ p ∈ ps, p ≤ (i : Int) →
          readAt dp ((i : Int) - p) = some (firstFit ps f ((i : Int) - p)) := by
        intro p hp hpi
        obtain ⟨prev, h1, h2, -⟩ := readAt_of_lt (hps p hp) hpi hi'
        rw [h1, ← h2, hprev p hp hpi]
      have hnn : ∀ p ∈ ps, p ≤ (i : Int) → (firstFit ps f ((i : Int) - p)).TotalItems ≠ -1 →
          0 < p ∧ 0 ≤ (firstFit ps f ((i : Int) - p)).TotalItems := by
        intro p hp hpi hne
        have hp0 := hps p hp
        obtain ⟨e, he, hok, -⟩ := hcells ((i : Int) - p).toNat (by omega)
        rw [hprev p hp hpi] at he
        cases he
        rw [(cell_reachable hok hne).1]
        omega
      rw [foldl_relaxEntry_firstFit hlt (fun p => firstFit ps f ((i : Int) - p)) ps hread hnn]
      have hne : (i : Int) ≠ 0 := by omega
      simp only [firstFit, if_neg hne]

/-! ## Climbing by the first pack size below the order size -/

theorem filled_step_first {orderSize first : Int} {others : List Int}
    (hps : ∀ p ∈ first :: others, 0 < p) {len : Nat} {dp : List DPEntry}
    (h : FilledUpTo orderSize (first :: others) len dp len) {j f : Nat} (hf : (f : Int) = first)
    (hlen : j + f < len) (hlt : ((j + f : Nat) : Int) < orderSize) {prev : DPEntry}
    (hprev : dp[j]? = some prev) (hr : prev.TotalItems ≠ -1) :
    dp[j + f]? = some (addPack first prev) ∧ (addPack first prev).TotalItems ≠ -1 := by
  have hfirst : 0 < first := hps first (List.mem_cons_self _ _)
  have hcells := filled_cells hps h
  obtain ⟨e, he, hok, -⟩ := hcells j (by omega)
  rw [hprev] at he; cases he
  have hti := (cell_reachable hok hr).1
  have hmarked : (addPack first prev).TotalItems ≠ -1 := by
    show prev.TotalItems + first ≠ -1
    omega
  refine ⟨?_, hmarked⟩
  have hrow := h.done (j + f) (by omega) hlen hlen
  unfold RowDone at hrow
  rw [hrow, List.foldl_cons]
  have hidx : (((j + f : Nat) : Int) - first).toNat = j := by omega
  have hread : readAt dp (((j + f : Nat) : Int) - first) = some prev := by
    unfold readAt
    rw [if_pos (by omega), hidx, hprev]
  rw [relaxEntry_first rfl (by omega) hread hr]
  rw [foldl_relaxEntry_marked_below dp others hmarked hlt]

theorem filled_ladder {orderSize first : Int} {others : List Int}
    (hps : ∀ p ∈ first :: others, 0 < p) {len : Nat} {dp : List DPEntry}
    (h : FilledUpTo orderSize (first :: others) len dp len) {b f : Nat} (hf : (f : Int) = first)
    {e : DPEntry} (hb : dp[b]? = some e) (hr : e.TotalItems ≠ -1) (c : Nat) :
    b + c * f < len → ((b + c * f : Nat) : Int) < orderSize →
      dp[b + c * f]? = some ((addPack first)^[c] e) ∧
        ((addPack first)^[c] e).TotalItems ≠ -1 := by
  induction c with
  | zero =>
    intro _ _
    simpa using ⟨hb, hr⟩
  | succ c ih =>
    intro hlen hlt
    have hfirst : 0 < first := hps first (List.mem_cons_self _ _)
    have hidx : b + (c + 1) * f = b + c * f + f := by ring
    rw [hidx] at hlen hlt ⊢
    obtain ⟨h1, h2⟩ := ih (by omega) (by push_cast at hlt ⊢; omega)
    rw [Function.iterate_succ_apply']
    exact filled_step_first hps h hf hlen hlt h1 h2

theorem addPack_iterate (p : Int) (c : Nat) : ∀ (t n : Int) (m : PackMap),
    (addPack p)^[c] { TotalItems := t, TotalPacks := n, Packs := some m }
      = { TotalItems := t + c * p, TotalPacks := n + c,
          Packs := some ((PackMap.incr p)^[c] m) } := by
  induction c with
  | zero => intro t n m; simp
  | succ c ih =>
    intro t n m
    rw [Function.iterate_succ_apply, Function.iterate_succ_apply]
    have : addPack p { TotalItems := t, TotalPacks := n, Packs := some m }
        = { TotalItems := t + p, TotalPacks := n + 1, Packs := some (PackMap.incr p m) } := rfl
    rw [this, ih]
    simp only [DPEntry.mk.injEq, Nat.cast_add, Nat.cast_one, and_true]
    constructor <;> ring

theorem relaxEntry_not_better {orderSize : Int} {i : Nat} {dp : List DPEntry}
    {cur prev : DPEntry} {p : Int} (hread : readAt dp ((i : Int) - p) = some prev)
    (hcur : cur.TotalItems ≠ -1) (h1 : cur.TotalItems ≤ prev.TotalItems + p)
    (h2 : cur.TotalPacks ≤ prev.TotalPacks + 1) :
    relaxEntry orderSize i dp cur p = cur := by
  unfold relaxEntry
  rw [hread]
  simp only
  split_ifs with ha hb hc
  · rcases hc with h | ⟨-, h⟩ | ⟨-, -, h⟩
    · exact absurd h hcur
    · omega
    · omega
  all_goals rfl

/-! ## The documented edge case: pack sizes 23, 31, 53 and an order of 500000 -/

theorem incr_53_iterate (c : Nat) : ∀ x y v : Int,
    (PackMap.incr 53)^[c] [(23, x), (31, y), (53, v)] = [(23, x), (31, y), (53, v + c)] := by
  induction c with
  | zero => intro x y v; simp
  | succ c ih =>
    intro x y v
    rw [Function.iterate_succ_apply]
    have : PackMap.incr 53 [(23, x), (31, y), (53, v)] = [(23, x), (31, y), (53, v + 1)] := by
      simp [PackMap.incr]
    rw [this, ih]
    simp only [Nat.cast_add, Nat.cast_one, List.cons.injEq, Prod.mk.injEq, true_and, and_true]
    ring

set_option maxRecDepth 100000 in
theorem edge_base_369 :
    firstFit [53, 31, 23] 369 369
      = { TotalItems := 369, TotalPacks := 11, Packs := some [(23, 2), (31, 7), (53, 2)] } := by
  decide!

set_option maxRecDepth 100000 in
theorem edge_base_338 :
    firstFit [53, 31, 23] 338 338
      = { TotalItems := 338, TotalPacks := 10, Packs := some [(23, 2), (31, 6), (53, 2)] } := by
  decide!

set_option maxRecDepth 100000 in
theorem edge_base_346 :
    firstFit [53, 31, 23] 346 346
      = { TotalItems := 346, TotalPacks := 10, Packs := some [(23, 1), (31, 7), (53, 2)] } := by
  decide!

theorem edge_positive : ∀ p ∈ [(53 : Int), 31, 23], 0 < p := by decide

theorem edge_ladder {len : Nat} {dp : List DPEntry}
    (h : FilledUpTo 500000 [53, 31, 23] len dp len) {b : Nat} {n x y v : Int}
    (hbase : firstFit [53, 31, 23] b (b : Int)
      = { TotalItems := b, TotalPacks := n, Packs := some [(23, x), (31, y), (53, v)] })
    (c : Nat) (hlen : b + c * 53 < len) (hlt : b + c * 53 < 500000) :
    dp[b + c * 53]? = some { TotalItems := (b : Int) + c * 53, TotalPacks := n + c,
                             Packs := some [(23, x), (31, y), (53, v + c)] } := by
  have hb := filled_firstFit edge_positive h b (by omega) (by omega) b (le_refl b)
  rw [hbase] at hb
  have hmarked : (DPEntry.mk (b : Int) n (some [(23, x), (31, y), (53, v)])).TotalItems ≠ -1 := by
    simp only; omega
  obtain ⟨h1, -⟩ := filled_ladder edge_positive h (by norm_num : ((53 : Nat) : Int) = 53) hb
    hmarked c hlen (by omega)
  rw [addPack_iterate, incr_53_iterate] at h1
  exact h1

theorem edge_cell {len : Nat} {dp : List DPEntry}
    (h : FilledUpTo 500000 [53, 31, 23] len dp len) (hlen : 500000 < len) :
    dp[500000]? = some { TotalItems := 500000, TotalPacks := 9438,
                         Packs := some [(23, 2), (31, 7), (53, 9429)] } := by
  have hA := edge_ladder h (b := 369) (by simpa using edge_base_369) 9426 (by omega) (by norm_num)
  have hB := edge_ladder h (b := 338) (by simpa using edge_base_338) 9427 (by omega) (by norm_num)
  have hC := edge_ladder h (b := 346) (by simpa using edge_base_346) 9427 (by omega) (by norm_num)
  norm_num at hA hB hC
  have rA : readAt dp (((500000 : Nat) : Int) - 53)
      = some (DPEntry.mk 499947 9437 (some [(23, 2), (31, 7), (53, 9428)])) := by
    unfold readAt
    rw [if_pos (by norm_num)]
    have : (((500000 : Nat) : Int) - 53).toNat = 499947 := by omega
    rw [this]; exact hA
  have rB : readAt dp (((500000 : Nat) : Int) - 31)
      = some (DPEntry.mk 499969 9437 (some [(23, 2), (31, 6), (53, 9429)])) := by
    unfold readAt
    rw [if_pos (by norm_num)]
    have : (((500000 : Nat) : Int) - 31).toNat = 499969 := by omega
    rw [this]; exact hB
  have rC : readAt dp (((500000 : Nat) : Int) - 23)
      = some (DPEntry.mk 499977 9437 (some [(23, 1), (31, 7), (53, 9429)])) := by
    unfold readAt
    rw [if_pos (by norm_num)]
    have : (((500000 : Nat) : Int) - 23).toNat = 499977 := by omega
    rw [this]; exact hC
  have hrow := h.done 500000 (by omega) hlen hlen
  unfold RowDone at hrow
  rw [hrow]
  simp only [List.foldl_cons, List.foldl_nil]
  rw [relaxEntry_first rfl (by norm_num) rA (by norm_num)]
  rw [relaxEntry_not_better rB (by simp [addPack]) (by simp [addPack]) (by simp [addPack])]
  rw [relaxEntry_not_better rC (by simp [addPack]) (by simp [addPack]) (by simp [addPack])]
  simp [addPack, entriesOf, PackMap.incr]

theorem edge_optimal :
    CalculateOptimalPacks 500000 [53, 31, 23]
      = some { Packs := some [(23, 2), (31, 7), (53, 9429)], TotalItems := 500000,
               TotalPacks := 9438 } := by
  obtain ⟨dp, r, k, -, hfilled, hcalc, hk1, hk2, hk3, hk4, hk5⟩ :=
    @calculate_valid 500000 53 [31, 23] (by decide) edge_positive (by decide)
  have hN := edge_cell hfilled (by omega)
  have hk : k = 500000 := by
    by_contra hne
    have := hk5 500000 _ (by norm_num) (by omega) hN
    simp at this
  subst hk
  rw [hN] at hk3
  cases hk3
  exact hcalc

/-! ## The service -/

theorem sortDescending_edge : sortDescending [23, 31, 53] = [53, 31, 23] := by decide

theorem calculatePacks_fresh (s : Service) (sizes : List Int) (orderSize : Int) :
    (Service.CalculatePacks (Service.SetPackSizes s sizes) orderSize).2
      = CalculateOptimalPacks orderSize (sortDescending sizes) := by
  unfold Service.CalculatePacks Service.SetPackSizes Cache.Clear Cache.Get
  simp only [List.lookup_nil]
  cases CalculateOptimalPacks orderSize (sortDescending sizes) <;> rfl

/-- C6. After `SetPackSizes([23, 31, 53])` the stored configuration is
`[53, 31, 23]` and `CalculatePacks(500000)` returns `{23:2, 31:7, 53:9429}`
with `TotalItems = 500000` and `TotalPacks = 9438`. -/
theorem edge_case_500000 (s : Service) :
    Service.GetPackSizes (Service.SetPackSizes s [23, 31, 53]) = [53, 31, 23] ∧
      (Service.CalculatePacks (Service.SetPackSizes s [23, 31, 53]) 500000).2
        = some { Packs := some [(23, 2), (31, 7), (53, 9429)], TotalItems := 500000,
                 TotalPacks := 9438 } := by
  refine ⟨sortDescending_edge, ?_⟩
  rw [calculatePacks_fresh, sortDescending_edge, edge_optimal]

/-! ## The memo key -/

theorem digitChar_injective : ∀ a < 10, ∀ b < 10, Nat.digitChar a = Nat.digitChar b → a = b := by
  decide

theorem digitChar_ne_minus : ∀ d < 10, Nat.digitChar d ≠ '-' := by decide

theorem map_digitChar_injective : ∀ (l1 l2 : List Nat), (∀ d ∈ l1, d < 10) → (∀ d ∈ l2, d < 10) →
    l1.map Nat.digitChar = l2.map Nat.digitChar → l1 = l2 := by
  intro l1
  induction l1 with
  | nil =>
    intro l2 _ _ h
    cases l2 with
    | nil => rfl
    | cons b l2 => simp at h
  | cons a l1 ih =>
    intro l2 h1 h2 h
    cases l2 with
    | nil => simp at h
    | cons b l2 =>
      simp only [List.map_cons, List.cons.injEq] at h
      have hab := digitChar_injective a (h1 a (List.mem_cons_self _ _)) b
        (h2 b (List.mem_cons_self _ _)) h.1
      have htl := ih l2 (fun d hd => h1 d (List.mem_cons_of_mem _ hd))
        (fun d hd => h2 d (List.mem_cons_of_mem _ hd)) h.2
      rw [hab, htl]

/-- The digits `fmtNat` prints, least significant first. -/
theorem fmtNat_eq (n : Nat) :
    fmtNat n = ((if n = 0 then [0] else Nat.digits 10 n).map Nat.digitChar).reverse := by
  unfold fmtNat
  split_ifs <;> rfl

theorem printed_digits_lt (n : Nat) : ∀ d ∈ (if n = 0 then [0] else Nat.digits 10 n), d < 10 := by
  intro d hd
  split_ifs at hd with h
  · simp at hd; omega
  · exact Nat.digits_lt_base (by norm_num) hd

theorem printed_digits_injective {a b : Nat}
    (h : (if a = 0 then [0] else Nat.digits 10 a) = (if b = 0 then [0] else Nat.digits 10 b)) :
    a = b := by
  have key : ∀ m : Nat, m ≠ 0 → Nat.digits 10 m ≠ [0] := by
    intro m hm hcon
    have := Nat.getLast_digit_ne_zero 10 hm
    simp [hcon] at this
  split_ifs at h with ha hb hb
  · rw [ha, hb]
  · exact absurd h.symm (key b hb)
  · exact absurd h (key a ha)
  · exact Nat.digits_inj_iff.1 h

theorem fmtNat_injective {a b : Nat} (h : fmtNat a = fmtNat b) : a = b := by
  rw [fmtNat_eq, fmtNat_eq] at h
  exact printed_digits_injective
    (map_digitChar_injective _ _ (printed_digits_lt a) (printed_digits_lt b)
      (List.reverse_injective h))

theorem fmtNat_chars (n : Nat) : ∀ c ∈ fmtNat n, ∃ d, d < 10 ∧ c = Nat.digitChar d := by
  intro c hc
  rw [fmtNat_eq, List.mem_reverse, List.mem_map] at hc
  obtain ⟨d, hd, rfl⟩ := hc
  exact ⟨d, printed_digits_lt n d hd, rfl⟩

theorem fmtNat_ne_nil (n : Nat) : fmtNat n ≠ [] := by
  rw [fmtNat_eq]
  split_ifs with h
  · simp
  · simpa using Nat.digits_ne_nil_iff_ne_zero.2 h

theorem fmtNat_ne_minus_cons (n : Nat) (l : List Char) : fmtNat n ≠ '-' :: l := by
  intro h
  have hmem : '-' ∈ fmtNat n := by rw [h]; exact List.mem_cons_self _ _
  obtain ⟨d, hd, hc⟩ := fmtNat_chars n '-' hmem
  exact digitChar_ne_minus d hd hc.symm

theorem fmtInt_injective {a b : Int} (h : fmtInt a = fmtInt b) : a = b := by
  cases a with
  | ofNat a =>
    cases b with
    | ofNat b => simp only [fmtInt] at h; rw [fmtNat_injective h]
    | negSucc b => simp only [fmtInt] at h; exact absurd h (fmtNat_ne_minus_cons _ _)
  | negSucc a =>
    cases b with
    | ofNat b => simp only [fmtInt] at h; exact absurd h.symm (fmtNat_ne_minus_cons _ _)
    | negSucc b =>
      simp only [fmtInt, List.cons.injEq, true_and] at h
      have := fmtNat_injective h
      have hab : a = b := by omega
      rw [hab]

/-- For one configuration, different order sizes have different keys. -/
theorem generateKey_order_injective {o1 o2 : Int} {ps : List Int}
    (h : generateKey o1 ps = generateKey o2 ps) : o1 = o2 := by
  unfold generateKey at h
  exact fmtInt_injective (List.append_cancel_right (congrArg String.data h))

/-! ## The memo -/

theorem lookup_mem {key : String} {v : CalculationResponse} :
    ∀ (c : Cache), c.lookup key = some v → (key, v) ∈ c := by
  intro c
  induction c with
  | nil => intro h; simp at h
  | cons e c ih =>
    obtain ⟨k, w⟩ := e
    intro h
    rw [List.lookup_cons] at h
    by_cases hk : key == k
    · rw [hk] at h
      simp only [Option.some.injEq] at h
      have : key = k := by simpa using hk
      rw [this, h]
      exact List.mem_cons_self _ _
    · have hk' : (key == k) = false := by simpa using hk
      rw [hk'] at h
      exact List.mem_cons_of_mem _ (ih h)

theorem cacheSound_setPackSizes (s : Service) (sizes : List Int) :
    CacheSound (Service.SetPackSizes s sizes) := by
  intro key v h
  simp [Service.SetPackSizes, Cache.Clear] at h

theorem cacheSound_newService (defaults : List Int) : CacheSound (NewService defaults) :=
  cacheSound_setPackSizes _ defaults

/-- A memo hit under a sound memo is the optimiser's own result. -/
theorem calculatePacks_result {s : Service} (hs : CacheSound s) (orderSize : Int) :
    (Service.CalculatePacks s orderSize).2 = CalculateOptimalPacks orderSize s.packSizes := by
  unfold Service.CalculatePacks
  simp only
  cases hget : Cache.Get s.cache orderSize s.packSizes with
  | some cached =>
    simp only
    obtain ⟨o, hkey, hval⟩ := hs _ _ (lookup_mem s.cache hget)
    rw [generateKey_order_injective hkey, hval]
  | none =>
    simp only
    cases CalculateOptimalPacks orderSize s.packSizes <;> rfl

theorem calculatePacks_packSizes (s : Service) (orderSize : Int) :
    (Service.CalculatePacks s orderSize).1.packSizes = s.packSizes := by
  unfold Service.CalculatePacks
  simp only
  cases Cache.Get s.cache orderSize s.packSizes with
  | some cached => rfl
  | none =>
    simp only
    cases CalculateOptimalPacks orderSize s.packSizes <;> rfl

theorem cacheSound_calculatePacks {s : Service} (hs : CacheSound s) (orderSize : Int) :
    CacheSound (Service.CalculatePacks s orderSize).1 := by
  unfold Service.CalculatePacks
  simp only
  cases hget : Cache.Get s.cache orderSize s.packSizes with
  | some cached => exact hs
  | none =>
    simp only
    cases hcalc : CalculateOptimalPacks orderSize s.packSizes with
    | none => exact hs
    | some result =>
      intro key v hmem
      simp only [Cache.Set] at hmem
      rcases List.mem_cons.1 hmem with h | h
      · simp only [Prod.mk.injEq] at h
        exact ⟨orderSize, h.1, by rw [hcalc, h.2]⟩
      · exact hs key v (List.mem_filter.1 h).1

theorem cacheSound_run (calls : List Call) : ∀ s : Service, CacheSound s →
    CacheSound (Service.run s calls) := by
  induction calls with
  | nil => intro s hs; exact hs
  | cons c calls ih =>
    intro s hs
    unfold Service.run
    rw [List.foldl_cons]
    apply ih
    cases c with
    | setPackSizes sizes => exact cacheSound_setPackSizes s sizes
    | calculatePacks orderSize => exact cacheSound_calculatePacks hs orderSize

theorem validate_rejects (s : Service) : ∀ sizes : List Int, (∃ x ∈ sizes, x ≤ 0) →
    ∃ msg, Service.ValidatePackSizes s sizes = some msg := by
  intro sizes
  induction sizes with
  | nil => rintro ⟨x, hx, -⟩; exact absurd hx (List.not_mem_nil x)
  | cons a sizes ih =>
    rintro ⟨x, hx, hle⟩
    unfold Service.ValidatePackSizes
    by_cases ha : a ≤ 0
    · rw [if_pos ha]; exact ⟨_, rfl⟩
    · rw [if_neg ha]
      rcases List.mem_cons.1 hx with h | h
      · subst h; exact absurd hle ha
      · exact ih ⟨x, h, hle⟩

/-! ## The claims about the service -/

/-- C8, as the code has it. `Service.SetPackSizes` does not validate: called
with `[100, -50, 300]` it stores `[300, 100, -50]` in place of the previous
configuration `[1000, 500, 250]`. -/
theorem setPackSizes_stores_invalid :
    (-50 : Int) ∈ [(100 : Int), -50, 300] ∧ (-50 : Int) ≤ 0 ∧
      Service.GetPackSizes (NewService [250, 500, 1000]) = [1000, 500, 250] ∧
      Service.GetPackSizes (Service.SetPackSizes (NewService [250, 500, 1000]) [100, -50, 300])
        = [300, 100, -50] ∧
      Service.GetPackSizes (Service.SetPackSizes (NewService [250, 500, 1000]) [100, -50, 300])
        ≠ Service.GetPackSizes (NewService [250, 500, 1000]) := by
  decide

/-- C8, amended. The update handler, which runs `ValidatePackSizes` before
`SetPackSizes`, answers a list with an element `≤ 0` with status 400 and the
validation message, and leaves the service, its configuration included, as it
was. -/
theorem update_rejects_invalid (s : Service) (sizes : List Int) (h : ∃ x ∈ sizes, x ≤ 0) :
    ∃ msg, Service.ValidatePackSizes s sizes = some msg ∧
      handleUpdatePackSizes s (some sizes)
        = (s, 400, { Success := false, Error := msg, PackSizes := [] }) ∧
      Service.GetPackSizes (handleUpdatePackSizes s (some sizes)).1 = Service.GetPackSizes s := by
  obtain ⟨msg, hmsg⟩ := validate_rejects s sizes h
  have hres : handleUpdatePackSizes s (some sizes)
      = (s, 400, { Success := false, Error := msg, PackSizes := [] }) := by
    unfold handleUpdatePackSizes
    simp only [hmsg]
  exact ⟨msg, hmsg, hres, by rw [hres]⟩

theorem update_rejects_invalid_witness :
    ∃ msg, Service.ValidatePackSizes (NewService [250, 500, 1000]) [100, -50, 300] = some msg ∧
      handleUpdatePackSizes (NewService [250, 500, 1000]) (some [100, -50, 300])
        = (NewService [250, 500, 1000], 400,
            { Success := false, Error := msg, PackSizes := [] }) ∧
      Service.GetPackSizes
          (handleUpdatePackSizes (NewService [250, 500, 1000]) (some [100, -50, 300])).1
        = Service.GetPackSizes (NewService [250, 500, 1000]) :=
  update_rejects_invalid (NewService [250, 500, 1000]) [100, -50, 300]
    ⟨-50, by decide, by decide⟩

/-- C9. The empty list passes `ValidatePackSizes`, the update handler stores
it with status 200, and the next `CalculatePacks(1)` hands the optimiser the
empty list, whose read of `packSizes[0]` panics. -/
theorem empty_configuration_panics :
    Service.ValidatePackSizes (NewService [250, 500, 1000, 2000, 5000]) [] = none ∧
      (handleUpdatePackSizes (NewService [250, 500, 1000, 2000, 5000]) (some [])).2.1 = 200 ∧
      Service.GetPackSizes
          (handleUpdatePackSizes (NewService [250, 500, 1000, 2000, 5000]) (some [])).1 = [] ∧
      (Service.CalculatePacks
          (handleUpdatePackSizes (NewService [250, 500, 1000, 2000, 5000]) (some [])).1 1).2
        = none := by
  decide

/-- C10. After any sequence of `SetPackSizes` and `CalculatePacks` calls on a
new service, `CalculatePacks(orderSize)` returns what the optimiser returns for
`orderSize` and the configuration stored at that moment. -/
theorem memo_correct (defaults : List Int) (calls : List Call) (orderSize : Int) :
    (Service.CalculatePacks (Service.run (NewService defaults) calls) orderSize).2
      = CalculateOptimalPacks orderSize
          (Service.GetPackSizes (Service.run (NewService defaults) calls)) :=
  calculatePacks_result (cacheSound_run calls _ (cacheSound_newService defaults)) orderSize

/-! ## Further claims about the optimiser -/

/-- C13. The pack count depends on the order of the list: for the order 4 the
optimiser returns `{2:2}`, 2 packs, on `[2, 1]` and `{1:2, 2:1}`, 3 packs, on the
permutation `[1, 2]`. -/
theorem total_packs_depend_on_list_order :
    List.Perm [(1 : Int), 2] [2, 1] ∧
      CalculateOptimalPacks 4 [2, 1]
        = some { Packs := some [(2, 2)], TotalItems := 4, TotalPacks := 2 } ∧
      CalculateOptimalPacks 4 [1, 2]
        = some { Packs := some [(1, 2), (2, 1)], TotalItems := 4, TotalPacks := 3 } :=
  ⟨List.Perm.swap 2 1 [], by decide, by decide⟩

/-- C14, as the code has it. On the order `9223372036854775807` with pack
sizes `[1]` the optimiser panics in `make`: no `Packs` map is returned. -/
theorem packs_well_formed_fails_on_overflow :
    (∀ p ∈ [(1 : Int)], 0 < p) ∧
      ¬ ∃ r, CalculateOptimalPacks 9223372036854775807 [1] = some r ∧
        ∀ kv ∈ entriesOf r.Packs, kv.1 ∈ [(1 : Int)] ∧ 0 < kv.2 := by
  refine ⟨by decide, ?_⟩
  rintro ⟨r, hr, -⟩
  rw [calculate_maxInt_panics] at hr
  exact absurd hr (by simp)

/-- C14, amended. For every order and every non-empty list of positive pack
sizes such that, when the order is positive, the table of `orderSize +
packSizes[0] + 1` cells can be allocated, the optimiser returns a response in
which each entry of `Packs` has a key that is an element of the list and a
quantity greater than zero. -/
theorem packs_well_formed (orderSize : Int) (packSizes : List Int)
    (hne : packSizes ≠ []) (hpos : ∀ p ∈ packSizes, 0 < p)
    (hfit : 0 < orderSize → orderSize + packSizes.head hne + 1 ≤ maxTableLen) :
    ∃ r, CalculateOptimalPacks orderSize packSizes = some r ∧
      ∀ kv ∈ entriesOf r.Packs, kv.1 ∈ packSizes ∧ 0 < kv.2 := by
  by_cases ho : orderSize ≤ 0
  · refine ⟨{ Packs := some [], TotalItems := 0, TotalPacks := 0 }, ?_, ?_⟩
    · unfold CalculateOptimalPacks
      rw [if_pos ho]
    · intro kv hkv
      exact absurd hkv (List.not_mem_nil kv)
  · cases packSizes with
    | nil => exact absurd rfl hne
    | cons first others =>
      have ho' : 0 < orderSize := by omega
      obtain ⟨r, k, hcalc, hk1, -, hk3, hok, -⟩ := calculate_least ho' hpos (hfit ho')
      rcases hok with hbad | ⟨-, ⟨m, hm, -, -, hkeys⟩, -⟩
      · omega
      · refine ⟨_, hcalc, ?_⟩
        simp only [hm, entriesOf]
        exact hkeys

theorem packs_well_formed_witness :
    ∃ r, CalculateOptimalPacks 501 [250, 500, 1000] = some r ∧
      ∀ kv ∈ entriesOf r.Packs, kv.1 ∈ [(250 : Int), 500, 1000] ∧ 0 < kv.2 :=
  packs_well_formed 501 [250, 500, 1000] (by decide) (by decide) (by decide)

/-- C19, as the code has it. On the order `9223372036854775807` with pack
sizes `[1]` the bound `orderSize + packSizes[0]` wraps around to `-2^63`,
`make` panics on the negative length, and the optimiser ends without a table
and without a response. -/
theorem table_invariant_fails_on_overflow :
    (0 : Int) < 9223372036854775807 ∧ (∀ p ∈ [(1 : Int)], 0 < p) ∧
      wrapInt (9223372036854775807 + 1) = -9223372036854775808 ∧
      initTable (wrapInt (9223372036854775807 + 1)) = none ∧
      CalculateOptimalPacks 9223372036854775807 [1] = none := by
  decide

/-- C19, amended. For a positive order and a list `first :: others` of positive
pack sizes whose table can be allocated, the fill loop ends with a table of
`orderSize + first + 1` cells in which cell `i` is marked exactly when `i` is a
sum of pack sizes, every marked cell has `TotalItems = i` and a pack map whose
`size * quantity` sum is `i`, and the response is the first marked cell at or
after `orderSize`. -/
theorem table_invariant (orderSize first : Int) (others : List Int) (ho : 0 < orderSize)
    (hpos : ∀ p ∈ first :: others, 0 < p) (hfit : orderSize + first + 1 ≤ maxTableLen) :
    ∃ dp0 dp, initTable (wrapInt (orderSize + first)) = some dp0 ∧
      fillTable orderSize (first :: others) (wrapInt (orderSize + first)) dp0 = some dp ∧
      wrapInt (orderSize + first) = orderSize + first ∧
      dp.length = (orderSize + first).toNat + 1 ∧
      (∀ i : Nat, (i : Int) ≤ orderSize + first → ∃ e, dp[i]? = some e ∧
        (e.TotalItems ≠ -1 ↔ Reachable (first :: others) (i : Int)) ∧
        (e.TotalItems ≠ -1 → e.TotalItems = (i : Int) ∧
          ∃ m, e.Packs = some m ∧ PackMap.items m = (i : Int))) ∧
      ∃ (r : DPEntry) (k : Nat),
        CalculateOptimalPacks orderSize (first :: others)
          = some { Packs := r.Packs, TotalItems := r.TotalItems, TotalPacks := r.TotalPacks } ∧
        orderSize ≤ (k : Int) ∧ (k : Int) ≤ orderSize + first ∧ dp[k]? = some r ∧
        r.TotalItems ≠ -1 ∧
        ∀ (j : Nat) (e : DPEntry), orderSize ≤ (j : Int) → j < k → dp[j]? = some e →
          e.TotalItems = -1 := by
  have hfirst : 0 < first := hpos first (List.mem_cons_self _ _)
  obtain ⟨dp, r, k, hfill, hfilled, hcalc, hk1, hk2, hk3, hk4, hk5⟩ :=
    calculate_valid ho hpos hfit
  have hwrap : wrapInt (orderSize + first) = orderSize + first :=
    wrapInt_eq (by omega) (by omega)
  rw [hwrap]
  refine ⟨_, dp, initTable_eq (by omega) hfit, hfill, rfl, hfilled.length_eq, ?_,
    r, k, hcalc, hk1, le_of_lt hk2, hk3, hk4, hk5⟩
  intro i hi
  obtain ⟨e, he, hok, hcomp⟩ := filled_cells hpos hfilled i (by omega)
  refine ⟨e, he, ⟨fun hne => (cell_reachable hok hne).2, hcomp⟩, fun hne => ?_⟩
  rcases hok with hbad | ⟨hti, ⟨m, hm, hitems, -, -⟩, -⟩
  · exact absurd hbad hne
  · exact ⟨hti, m, hm, hitems⟩

theorem table_invariant_witness :
    ∃ dp0 dp, initTable (wrapInt (7 + 5)) = some dp0 ∧
      fillTable 7 (5 :: [3]) (wrapInt (7 + 5)) dp0 = some dp ∧
      wrapInt (7 + 5) = 7 + 5 ∧
      dp.length = ((7 : Int) + 5).toNat + 1 ∧
      (∀ i : Nat, (i : Int) ≤ 7 + 5 → ∃ e, dp[i]? = some e ∧
        (e.TotalItems ≠ -1 ↔ Reachable (5 :: [3]) (i : Int)) ∧
        (e.TotalItems ≠ -1 → e.TotalItems = (i : Int) ∧
          ∃ m, e.Packs = some m ∧ PackMap.items m = (i : Int))) ∧
      ∃ (r : DPEntry) (k : Nat),
        CalculateOptimalPacks 7 (5 :: [3])
          = some { Packs := r.Packs, TotalItems := r.TotalItems, TotalPacks := r.TotalPacks } ∧
        (7 : Int) ≤ (k : Int) ∧ (k : Int) ≤ 7 + 5 ∧ dp[k]? = some r ∧
        r.TotalItems ≠ -1 ∧
        ∀ (j : Nat) (e : DPEntry), (7 : Int) ≤ (j : Int) → j < k → dp[j]? = some e →
          e.TotalItems = -1 :=
  table_invariant 7 5 [3] (by decide) (by decide) (by decide)

/-- C20, as the code has it. On the order `9223372036854775807` with pack
sizes `[1]` the optimiser panics in `make`: there is no response whose
overshoot could be measured. -/
theorem overshoot_fails_on_overflow :
    (0 : Int) < 9223372036854775807 ∧ (∀ p ∈ [(1 : Int)], 0 < p) ∧
      [(1 : Int)].Pairwise (fun a b => b ≤ a) ∧
      ¬ ∃ r, CalculateOptimalPacks 9223372036854775807 [1] = some r ∧
        ∀ p ∈ [(1 : Int)], r.TotalItems - 9223372036854775807 < p := by
  refine ⟨by decide, by decide, by decide, ?_⟩
  rintro ⟨r, hr, -⟩
  rw [calculate_maxInt_panics] at hr
  exact absurd hr (by simp)

/-- C20, amended. For a positive order and a non-empty, non-increasing list of
positive pack sizes whose table of `orderSize + packSizes[0] + 1` cells can be
allocated, the response overshoots the order by less than every pack size:
`TotalItems - orderSize < p` for each `p` of the list. -/
theorem overshoot_below_every_pack (orderSize : Int) (packSizes : List Int)
    (ho : 0 < orderSize) (hne : packSizes ≠ []) (hpos : ∀ p ∈ packSizes, 0 < p)
    (_hord : packSizes.Pairwise (fun a b => b ≤ a))
    (hfit : orderSize + packSizes.head hne + 1 ≤ maxTableLen) :
    ∃ r, CalculateOptimalPacks orderSize packSizes = some r ∧
      ∀ p ∈ packSizes, r.TotalItems - orderSize < p := by
  cases packSizes with
  | nil => exact absurd rfl hne
  | cons first others =>
    obtain ⟨r, k, hcalc, -, -, hk3, -, hmin⟩ := calculate_least ho hpos hfit
    refine ⟨_, hcalc, ?_⟩
    intro p hp
    obtain ⟨t, ht1, ht2, ht3⟩ := reachable_window hp (hpos p hp) ho
    have := hmin t ht1 ht3
    simp only
    omega

theorem overshoot_below_every_pack_witness :
    ∃ r, CalculateOptimalPacks 251 [1000, 500, 250] = some r ∧
      ∀ p ∈ [(1000 : Int), 500, 250], r.TotalItems - 251 < p :=
  overshoot_below_every_pack 251 [1000, 500, 250] (by decide) (by decide) (by decide)
    (by decide) (by decide)

/-! ## Further claims about the service -/

/-- C11. After `SetPackSizes(sizes)`, and likewise after `NewService(sizes)`,
`GetPackSizes` returns a permutation of `sizes` in non-increasing order. -/
theorem configuration_sorted (s : Service) (sizes : List Int) :
    List.Perm (Service.GetPackSizes (Service.SetPackSizes s sizes)) sizes ∧
      (Service.GetPackSizes (Service.SetPackSizes s sizes)).Pairwise (fun a b => b ≤ a) ∧
      List.Perm (Service.GetPackSizes (NewService sizes)) sizes ∧
      (Service.GetPackSizes (NewService sizes)).Pairwise (fun a b => b ≤ a) := by
  haveI : IsTotal Int (fun a b => b ≤ a) := ⟨fun a b => le_total b a⟩
  haveI : IsTrans Int (fun a b => b ≤ a) := ⟨fun a b c hab hbc => le_trans hbc hab⟩
  have h1 : List.Perm (sortDescending sizes) sizes := List.perm_insertionSort _ sizes
  have h2 : (sortDescending sizes).Pairwise (fun a b => b ≤ a) :=
    List.sorted_insertionSort (fun a b : Int => b ≤ a) sizes
  exact ⟨h1, h2, h1, h2⟩

/-- C15. `ValidatePackSizes(sizes)` returns an error exactly when some element
of `sizes` is `≤ 0`; the error is the message for the first such element in
list order; the empty list is accepted. -/
theorem validation_exact (s : Service) (sizes : List Int) :
    (Service.ValidatePackSizes s sizes ≠ none ↔ ∃ x ∈ sizes, x ≤ 0) ∧
      Service.ValidatePackSizes s sizes
        = (sizes.find? (fun x => decide (x ≤ 0))).map
            (fun x => String.mk ("pack sizes must be positive, got: ".data ++ fmtInt x)) ∧
      Service.ValidatePackSizes s [] = none := by
  have hfind : ∀ l : List Int, Service.ValidatePackSizes s l
      = (l.find? (fun x => decide (x ≤ 0))).map
          (fun x => String.mk ("pack sizes must be positive, got: ".data ++ fmtInt x)) := by
    intro l
    induction l with
    | nil => rfl
    | cons a l ih =>
      unfold Service.ValidatePackSizes
      rw [List.find?_cons]
      by_cases ha : a ≤ 0
      · rw [if_pos ha]
        simp [ha]
      · rw [if_neg ha, ih]
        simp [ha]
  refine ⟨⟨fun h => ?_, fun h => ?_⟩, hfind sizes, rfl⟩
  · rw [hfind] at h
    cases hf : sizes.find? (fun x => decide (x ≤ 0)) with
    | none => rw [hf] at h; exact absurd rfl h
    | some x =>
      exact ⟨x, List.mem_of_find?_eq_some hf, by simpa using List.find?_some hf⟩
  · obtain ⟨msg, hmsg⟩ := validate_rejects s sizes h
    rw [hmsg]
    exact Option.some_ne_none msg

/-! ## The memo key is injective -/

theorem digitChar_ne_space : ∀ d < 10, Nat.digitChar d ≠ ' ' := by decide

theorem digitChar_ne_underscore : ∀ d < 10, Nat.digitChar d ≠ '_' := by decide

theorem fmtInt_chars (n : Int) : ∀ c ∈ fmtInt n, c = '-' ∨ ∃ d, d < 10 ∧ c = Nat.digitChar d := by
  intro c hc
  cases n with
  | ofNat n => exact Or.inr (fmtNat_chars n c hc)
  | negSucc n =>
    simp only [fmtInt] at hc
    rcases List.mem_cons.1 hc with h | h
    · exact Or.inl h
    · exact Or.inr (fmtNat_chars _ c h)

theorem space_not_mem_fmtInt (n : Int) : ' ' ∉ fmtInt n := by
  intro h
  rcases fmtInt_chars n ' ' h with h1 | ⟨d, hd, h1⟩
  · exact absurd h1 (by decide)
  · exact digitChar_ne_space d hd h1.symm

theorem underscore_not_mem_fmtInt (n : Int) : '_' ∉ fmtInt n := by
  intro h
  rcases fmtInt_chars n '_' h with h1 | ⟨d, hd, h1⟩
  · exact absurd h1 (by decide)
  · exact digitChar_ne_underscore d hd h1.symm

theorem fmtInt_ne_nil (n : Int) : fmtInt n ≠ [] := by
  cases n with
  | ofNat n => exact fmtNat_ne_nil n
  | negSucc n => simp [fmtInt]

/-- Two texts cut at the first occurrence of a separator agree part by part. -/
theorem append_separator_injective (c : Char) : ∀ (l1 l2 r1 r2 : List Char),
    c ∉ l1 → c ∉ l2 → l1 ++ c :: r1 = l2 ++ c :: r2 → l1 = l2 ∧ r1 = r2 := by
  intro l1
  induction l1 with
  | nil =>
    intro l2 r1 r2 _ h2 h
    cases l2 with
    | nil => simpa using h
    | cons b l2 =>
      simp only [List.nil_append, List.cons_append, List.cons.injEq] at h
      exact absurd (h.1 ▸ List.mem_cons_self _ _) h2
  | cons a l1 ih =>
    intro l2 r1 r2 h1 h2 h
    cases l2 with
    | nil =>
      simp only [List.nil_append, List.cons_append, List.cons.injEq] at h
      exact absurd (h.1 ▸ List.mem_cons_self _ _) h1
    | cons b l2 =>
      simp only [List.cons_append, List.cons.injEq] at h
      obtain ⟨h3, h4⟩ := ih l2 r1 r2 (fun hm => h1 (List.mem_cons_of_mem _ hm))
        (fun hm => h2 (List.mem_cons_of_mem _ hm)) h.2
      exact ⟨by rw [h.1, h3], h4⟩

theorem fmtElems_injective : ∀ (l1 l2 : List Int), fmtElems l1 = fmtElems l2 → l1 = l2 := by
  intro l1
  induction l1 with
  | nil =>
    intro l2 h
    cases l2 with
    | nil => rfl
    | cons y l2 =>
      exfalso
      cases l2 with
      | nil => exact fmtInt_ne_nil y h.symm
      | cons z l2 =>
        simp only [fmtElems] at h
        have := congrArg List.length h
        have hy := List.length_pos.2 (fmtInt_ne_nil y)
        simp at this
        omega
  | cons x l1 ih =>
    intro l2 h
    cases l2 with
    | nil =>
      exfalso
      cases l1 with
      | nil => exact fmtInt_ne_nil x h
      | cons z l1 =>
        simp only [fmtElems] at h
        have := congrArg List.length h
        simp at this
    | cons y l2 =>
      cases l1 with
      | nil =>
        cases l2 with
        | nil =>
          simp only [fmtElems] at h
          rw [fmtInt_injective h]
        | cons z l2 =>
          exfalso
          simp only [fmtElems] at h
          apply space_not_mem_fmtInt x
          rw [h]
          simp
      | cons x' l1 =>
        cases l2 with
        | nil =>
          exfalso
          simp only [fmtElems] at h
          apply space_not_mem_fmtInt y
          rw [← h]
          simp
        | cons z l2 =>
          simp only [fmtElems] at h
          obtain ⟨h1, h2⟩ := append_separator_injective ' ' _ _ _ _
            (space_not_mem_fmtInt x) (space_not_mem_fmtInt y) h
          rw [fmtInt_injective h1, ih (z :: l2) h2]

/-- Different `(orderSize, packSizes)` pairs have different keys. -/
theorem generateKey_injective {o1 o2 : Int} {ps1 ps2 : List Int}
    (h : generateKey o1 ps1 = generateKey o2 ps2) : o1 = o2 ∧ ps1 = ps2 := by
  unfold generateKey at h
  obtain ⟨h1, h2⟩ := append_separator_injective '_' _ _ _ _
    (underscore_not_mem_fmtInt o1) (underscore_not_mem_fmtInt o2) (congrArg String.data h)
  unfold fmtSlice at h2
  have h3 := List.append_cancel_right h2
  exact ⟨fmtInt_injective h1, fmtElems_injective _ _ (List.cons.inj h3).2⟩

/-! ## Memo operations -/

theorem lookup_filter_ne {key other : String} : ∀ (c : Cache), key ≠ other →
    (c.filter (fun e => e.1 != other)).lookup key = c.lookup key := by
  intro c hne
  induction c with
  | nil => rfl
  | cons e c ih =>
    obtain ⟨k, w⟩ := e
    rw [List.filter_cons]
    by_cases hk : k = other
    · subst hk
      have hkey : (key == k) = false := by simpa using hne
      simp only [bne_self_eq_false, Bool.false_eq_true, if_false, List.lookup_cons, hkey]
      exact ih
    · have hb : (k != other) = true := by simpa using hk
      simp only [hb, if_true, List.lookup_cons]
      rw [ih]

theorem get_set (c : Cache) (o o' : Int) (ps ps' : List Int) (r : CalculationResponse) :
    Cache.Get (Cache.Set c o' ps' r) o ps
      = if o' = o ∧ ps' = ps then some r else Cache.Get c o ps := by
  unfold Cache.Get Cache.Set
  by_cases h : o' = o ∧ ps' = ps
  · rw [if_pos h, h.1, h.2]
    simp
  · rw [if_neg h]
    have hne : generateKey o ps ≠ generateKey o' ps' := by
      intro hk
      obtain ⟨h1, h2⟩ := generateKey_injective hk
      exact h ⟨h1.symm, h2.symm⟩
    have hb : (generateKey o ps == generateKey o' ps') = false := by simpa using hne
    rw [List.lookup_cons, hb]
    exact lookup_filter_ne c hne

theorem get_run (o : Int) (ps : List Int) (ops : List CacheOp) :
    Cache.Get (Cache.run NewCache ops) o ps = mostRecentSet o ps ops.reverse := by
  induction ops using List.reverseRecOn with
  | nil => rfl
  | append_singleton ops op ih =>
    unfold Cache.run at ih ⊢
    rw [List.foldl_append, List.reverse_append]
    simp only [List.foldl_cons, List.foldl_nil, List.reverse_cons, List.reverse_nil,
      List.nil_append, List.singleton_append]
    cases op with
    | get o' ps' => simp only [Cache.apply, mostRecentSet]; exact ih
    | set o' ps' r =>
      simp only [Cache.apply, mostRecentSet]
      rw [get_set, ih]
    | clear => rfl

/-- C16. After any sequence of memo operations on a new memo, `Get(orderSize,
packSizes)` returns the value of the most recent `Set` with exactly this order
size and this pack-size sequence since the last `Clear`, and reports a miss
when there is none; and `generateKey` is injective on `(orderSize,
packSizes)`. -/
theorem memo_exact_match (ops : List CacheOp) (orderSize : Int) (packSizes : List Int) :
    Cache.Get (Cache.run NewCache ops) orderSize packSizes
        = mostRecentSet orderSize packSizes ops.reverse ∧
      ∀ (o1 o2 : Int) (ps1 ps2 : List Int),
        generateKey o1 ps1 = generateKey o2 ps2 → o1 = o2 ∧ ps1 = ps2 :=
  ⟨get_run orderSize packSizes ops, fun _ _ _ _ h => generateKey_injective h⟩

/-! ## The two copies of the algorithm -/

theorem main_readAt (dp : List Main.dpEntry) (k : Int) :
    readAt (dp.map Main.toModel) k = (Main.readAt dp k).map Main.toModel := by
  unfold readAt Main.readAt
  split_ifs
  · exact List.getElem?_map _ _ _
  · rfl

theorem main_relax (orderSize : Int) (i : Nat) (dp : List Main.dpEntry) (p : Int) :
    relax orderSize i (dp.map Main.toModel) p
      = (Main.relax orderSize i dp p).map (List.map Main.toModel) := by
  unfold relax Main.relax
  rw [main_readAt, List.getElem?_map]
  by_cases hpi : p ≤ (i : Int)
  · rw [if_pos hpi, if_pos hpi]
    cases Main.readAt dp ((i : Int) - p) with
    | none => rfl
    | some prev =>
      simp only [Option.map_some']
      by_cases hr : prev.totalItems ≠ -1
      · have hr' : (Main.toModel prev).TotalItems ≠ -1 := hr
        rw [if_pos hr, if_pos hr']
        cases dp[i]? with
        | none => rfl
        | some cur =>
          simp only [Option.map_some']
          by_cases hc : cur.totalItems = -1 ∨
              ((i : Int) ≥ orderSize ∧ prev.totalItems + p < cur.totalItems) ∨
              ((i : Int) ≥ orderSize ∧ prev.totalItems + p = cur.totalItems ∧
                prev.totalPacks + 1 < cur.totalPacks)
          · have hc' : (Main.toModel cur).TotalItems = -1 ∨
                ((i : Int) ≥ orderSize ∧
                  (Main.toModel prev).TotalItems + p < (Main.toModel cur).TotalItems) ∨
                ((i : Int) ≥ orderSize ∧
                  (Main.toModel prev).TotalItems + p = (Main.toModel cur).TotalItems ∧
                  (Main.toModel prev).TotalPacks + 1 < (Main.toModel cur).TotalPacks) := hc
            rw [if_pos hc, if_pos hc']
            simp only [Option.map_some', List.map_set]
            rfl
          · have hc' : ¬ ((Main.toModel cur).TotalItems = -1 ∨
                ((i : Int) ≥ orderSize ∧
                  (Main.toModel prev).TotalItems + p < (Main.toModel cur).TotalItems) ∨
                ((i : Int) ≥ orderSize ∧
                  (Main.toModel prev).TotalItems + p = (Main.toModel cur).TotalItems ∧
                  (Main.toModel prev).TotalPacks + 1 < (Main.toModel cur).TotalPacks)) := hc
            rw [if_neg hc, if_neg hc']
            rfl
      · have hr' : ¬ (Main.toModel prev).TotalItems ≠ -1 := hr
        rw [if_neg hr, if_neg hr']
        rfl
  · rw [if_neg hpi, if_neg hpi]
    rfl

/-- A monadic fold commutes with a map of the state that its step commutes with. -/
theorem foldlM_option_map {σ τ α : Type} (h : σ → τ) (g : σ → α → Option σ)
    (g' : τ → α → Option τ) (hg : ∀ s x, g' (h s) x = (g s x).map h) :
    ∀ (l : List α) (s : σ), l.foldlM g' (h s) = (l.foldlM g s).map h := by
  intro l
  induction l with
  | nil => intro s; rfl
  | cons x l ih =>
    intro s
    rw [List.foldlM_cons, List.foldlM_cons, hg]
    cases g s x with
    | none => rfl
    | some s' => exact ih s'

theorem main_fillRow (orderSize : Int) (ps : List Int) (dp : List Main.dpEntry) (i : Nat) :
    fillRow orderSize ps (dp.map Main.toModel) i
      = (Main.fillRow orderSize ps dp i).map (List.map Main.toModel) :=
  foldlM_option_map (List.map Main.toModel) (Main.relax orderSize i) (relax orderSize i)
    (fun s x => main_relax orderSize i s x) ps dp

theorem main_fillTable (orderSize : Int) (ps : List Int) (maxSize : Int)
    (dp : List Main.dpEntry) :
    fillTable orderSize ps maxSize (dp.map Main.toModel)
      = (Main.fillTable orderSize ps maxSize dp).map (List.map Main.toModel) :=
  foldlM_option_map (List.map Main.toModel) (Main.fillRow orderSize ps) (fillRow orderSize ps)
    (fun s x => main_fillRow orderSize ps s x) _ dp

theorem main_pick (dp : List Main.dpEntry) (best : Main.dpEntry) (i : Nat) :
    pick (dp.map Main.toModel) (Main.toModel best) i
      = (Main.pick dp best i).map Main.toModel := by
  unfold pick Main.pick
  rw [List.getElem?_map]
  cases dp[i]? with
  | none => rfl
  | some e =>
    simp only [Option.map_some']
    by_cases hr : e.totalItems ≠ -1
    · have hr' : (Main.toModel e).TotalItems ≠ -1 := hr
      rw [if_pos hr, if_pos hr']
      by_cases hc : best.totalItems = -1 ∨ e.totalItems < best.totalItems ∨
          (e.totalItems = best.totalItems ∧ e.totalPacks < best.totalPacks)
      · have hc' : (Main.toModel best).TotalItems = -1 ∨
            (Main.toModel e).TotalItems < (Main.toModel best).TotalItems ∨
            ((Main.toModel e).TotalItems = (Main.toModel best).TotalItems ∧
              (Main.toModel e).TotalPacks < (Main.toModel best).TotalPacks) := hc
        rw [if_pos hc, if_pos hc']
        rfl
      · have hc' : ¬ ((Main.toModel best).TotalItems = -1 ∨
            (Main.toModel e).TotalItems < (Main.toModel best).TotalItems ∨
            ((Main.toModel e).TotalItems = (Main.toModel best).TotalItems ∧
              (Main.toModel e).TotalPacks < (Main.toModel best).TotalPacks)) := hc
        rw [if_neg hc, if_neg hc']
        rfl
    · have hr' : ¬ (Main.toModel e).TotalItems ≠ -1 := hr
      rw [if_neg hr, if_neg hr']
      rfl

theorem main_scan (orderSize maxSize : Int) (dp : List Main.dpEntry) :
    scan orderSize maxSize (dp.map Main.toModel)
      = (Main.scan orderSize maxSize dp).map Main.toModel := by
  unfold scan Main.scan
  exact foldlM_option_map Main.toModel (Main.pick dp) (pick (dp.map Main.toModel))
    (fun s x => main_pick dp s x) _ (Main.dpEntry.mk (-1) 0 none)

theorem main_initTable (maxSize : Int) :
    initTable maxSize = (Main.initTable maxSize).map (List.map Main.toModel) := by
  unfold initTable Main.initTable
  split_ifs
  · rfl
  · cases (wrapInt (maxSize + 1)).toNat with
    | zero => rfl
    | succ n =>
      simp only [List.replicate_succ, Option.map_some', List.map_cons, List.map_replicate]
      rfl

/-- With an empty memo the standalone calculator returns the fields the
optimiser returns for the stored list, and panics when the optimiser does. -/
theorem main_calculatePacks_eq (orderSize : Int) (ps : List Int) :
    (Main.PackCalculator.CalculatePacks { packSizes := ps, cache := [] } orderSize).2.map
        Main.responseFields
      = (CalculateOptimalPacks orderSize ps).map responseFields := by
  unfold Main.PackCalculator.CalculatePacks CalculateOptimalPacks
  simp only [List.lookup_nil]
  by_cases ho : orderSize ≤ 0
  · rw [if_pos ho, if_pos ho]
    rfl
  · rw [if_neg ho, if_neg ho]
    cases ps with
    | nil => rfl
    | cons first others =>
      simp only
      rw [main_initTable]
      cases Main.initTable (wrapInt (orderSize + first)) with
      | none => rfl
      | some dp0 =>
        simp only [Option.map_some']
        rw [main_fillTable]
        cases Main.fillTable orderSize (first :: others) (wrapInt (orderSize + first)) dp0 with
        | none => rfl
        | some dp =>
          simp only [Option.map_some']
          rw [main_scan]
          cases Main.scan orderSize (wrapInt (orderSize + first)) dp with
          | none => rfl
          | some best => rfl

/-- C18. For every order and every non-empty pack-size list, the standalone
calculator of `main.go`, holding that list and an empty memo, returns the same
`Packs`, `TotalItems` and `TotalPacks` as `CalculateOptimalPacks`, and panics
exactly when it does. -/
theorem copies_agree (orderSize : Int) (ps : List Int) (_hne : ps ≠ []) :
    (Main.PackCalculator.CalculatePacks { packSizes := ps, cache := [] } orderSize).2.map
        Main.responseFields
      = (CalculateOptimalPacks orderSize ps).map responseFields :=
  main_calculatePacks_eq orderSize ps

theorem copies_agree_witness :
    (Main.PackCalculator.CalculatePacks { packSizes := [5, 4, 1], cache := [] } 12).2.map
        Main.responseFields
      = (CalculateOptimalPacks 12 [5, 4, 1]).map responseFields :=
  copies_agree 12 [5, 4, 1] (by decide)

/-- C12. A new standalone calculator holds the default pack sizes as written in
`NewPackCalculator`, ascending: `GetPackSizes` returns `[250, 500, 1000, 2000,
5000]`, not the descending list. -/
theorem default_configuration_ascending :
    Main.PackCalculator.GetPackSizes Main.NewPackCalculator = [250, 500, 1000, 2000, 5000] ∧
      Main.PackCalculator.GetPackSizes Main.NewPackCalculator ≠ [5000, 2000, 1000, 500, 250] := by
  decide

/-! ## The documented large order: 12001 with the default pack sizes -/

theorem large_positive : ∀ p ∈ [(5000 : Int), 2000, 1000, 500, 250], 0 < p := by decide

theorem large_divisible {l : List Int} (hl : Combo [5000, 2000, 1000, 500, 250] l) :
    (250 : Int) ∣ l.sum := by
  induction l with
  | nil => simp
  | cons x l ih =>
    rw [List.sum_cons]
    apply dvd_add
    · have hx := hl x (List.mem_cons_self _ _)
      simp only [List.mem_cons, List.mem_singleton, List.not_mem_nil, or_false] at hx
      rcases hx with h | h | h | h | h <;> subst h <;> decide
    · exact ih (fun y hy => hl y (List.mem_cons_of_mem _ hy))

set_option maxRecDepth 100000 in
theorem large_base_7250 :
    firstFit [5000, 2000, 1000, 500, 250] 7250 7250
      = { TotalItems := 7250, TotalPacks := 3,
          Packs := some [(250, 1), (2000, 1), (5000, 1)] } := by
  decide!

set_option maxRecDepth 100000 in
theorem large_base_10250 :
    firstFit [5000, 2000, 1000, 500, 250] 10250 10250
      = { TotalItems := 10250, TotalPacks := 3, Packs := some [(250, 1), (5000, 2)] } := by
  decide!

set_option maxRecDepth 100000 in
theorem large_base_11250 :
    firstFit [5000, 2000, 1000, 500, 250] 11250 11250
      = { TotalItems := 11250, TotalPacks := 4,
          Packs := some [(250, 1), (1000, 1), (5000, 2)] } := by
  decide!

set_option maxRecDepth 100000 in
theorem large_base_11750 :
    firstFit [5000, 2000, 1000, 500, 250] 11750 11750
      = { TotalItems := 11750, TotalPacks := 5,
          Packs := some [(250, 1), (500, 1), (1000, 1), (5000, 2)] } := by
  decide!

set_option maxRecDepth 100000 in
theorem large_base_12000 :
    firstFit [5000, 2000, 1000, 500, 250] 12000 12000
      = { TotalItems := 12000, TotalPacks := 3, Packs := some [(2000, 1), (5000, 2)] } := by
  decide!

theorem readAt_sub (dp : List DPEntry) {i j : Nat} {p : Int} (h : (i : Int) - p = (j : Int)) :
    readAt dp ((i : Int) - p) = dp[j]? := by
  unfold readAt
  rw [h, if_pos (Int.natCast_nonneg j), Int.toNat_ofNat]

theorem large_cell {len : Nat} {dp : List DPEntry}
    (h : FilledUpTo 12001 [5000, 2000, 1000, 500, 250] len dp len) (hlen : 12250 < len) :
    dp[12250]? = some { TotalItems := 12250, TotalPacks := 4,
                        Packs := some [(250, 1), (2000, 1), (5000, 2)] } := by
  have hA := filled_firstFit large_positive h 7250 (by omega) (by norm_num) 7250 (le_refl _)
  have hB := filled_firstFit large_positive h 10250 (by omega) (by norm_num) 10250 (le_refl _)
  have hC := filled_firstFit large_positive h 11250 (by omega) (by norm_num) 11250 (le_refl _)
  have hD := filled_firstFit large_positive h 11750 (by omega) (by norm_num) 11750 (le_refl _)
  have hE := filled_firstFit large_positive h 12000 (by omega) (by norm_num) 12000 (le_refl _)
  rw [Nat.cast_ofNat, large_base_7250] at hA
  rw [Nat.cast_ofNat, large_base_10250] at hB
  rw [Nat.cast_ofNat, large_base_11250] at hC
  rw [Nat.cast_ofNat, large_base_11750] at hD
  rw [Nat.cast_ofNat, large_base_12000] at hE
  have rA := (readAt_sub dp (by norm_num : ((12250 : Nat) : Int) - 5000 = ((7250 : Nat) : Int))).trans hA
  have rB := (readAt_sub dp (by norm_num : ((12250 : Nat) : Int) - 2000 = ((10250 : Nat) : Int))).trans hB
  have rC := (readAt_sub dp (by norm_num : ((12250 : Nat) : Int) - 1000 = ((11250 : Nat) : Int))).trans hC
  have rD := (readAt_sub dp (by norm_num : ((12250 : Nat) : Int) - 500 = ((11750 : Nat) : Int))).trans hD
  have rE := (readAt_sub dp (by norm_num : ((12250 : Nat) : Int) - 250 = ((12000 : Nat) : Int))).trans hE
  have hrow := h.done 12250 (by omega) hlen hlen
  unfold RowDone at hrow
  rw [hrow]
  simp only [List.foldl_cons, List.foldl_nil]
  rw [relaxEntry_first rfl (by norm_num) rA (by norm_num)]
  rw [relaxEntry_not_better rB (by simp [addPack]) (by simp [addPack]) (by simp [addPack])]
  rw [relaxEntry_not_better rC (by simp [addPack]) (by simp [addPack]) (by simp [addPack])]
  rw [relaxEntry_not_better rD (by simp [addPack]) (by simp [addPack]) (by simp [addPack])]
  rw [relaxEntry_not_better rE (by simp [addPack]) (by simp [addPack]) (by simp [addPack])]
  simp [addPack, entriesOf, PackMap.incr]

theorem large_optimal :
    CalculateOptimalPacks 12001 [5000, 2000, 1000, 500, 250]
      = some { Packs := some [(250, 1), (2000, 1), (5000, 2)], TotalItems := 12250,
               TotalPacks := 4 } := by
  obtain ⟨dp, r, k, -, hfilled, hcalc, hk1, hk2, hk3, hk4, hk5⟩ :=
    @calculate_valid 12001 5000 [2000, 1000, 500, 250] (by decide) large_positive (by decide)
  have hN := large_cell hfilled (by omega)
  obtain ⟨e, he, hok, -⟩ := filled_cells large_positive hfilled k (by omega)
  rw [hk3] at he
  cases he
  obtain ⟨l, hl, hsum⟩ := (cell_reachable hok hk4).2
  obtain ⟨c, hc⟩ := large_divisible hl
  rw [hsum] at hc
  have hk : k = 12250 := by
    by_contra hne
    have hlt : 12250 < k := by omega
    have := hk5 12250 _ (by norm_num) hlt hN
    simp at this
  subst hk
  rw [hN] at hk3
  cases hk3
  exact hcalc

theorem sortDescending_large :
    sortDescending [250, 500, 1000, 2000, 5000] = [5000, 2000, 1000, 500, 250] := by decide

theorem main_response_eq {x : Option Main.CalculationResponse} {packs : Option PackMap}
    {items count : Int} (h : x.map Main.responseFields = some (packs, items, count)) :
    x = some { Packs := packs, TotalItems := items, TotalPacks := count } := by
  cases x with
  | none => simp at h
  | some r =>
    obtain ⟨a, b, c⟩ := r
    simp only [Option.map_some', Main.responseFields, Option.some.injEq, Prod.mk.injEq] at h
    obtain ⟨h1, h2, h3⟩ := h
    rw [h1, h2, h3]

/-- C17. After `SetPackSizes([250, 500, 1000, 2000, 5000])` the stored list is
`[5000, 2000, 1000, 500, 250]` and `CalculatePacks(12001)` returns `{250:1,
2000:1, 5000:2}` with `TotalItems = 12250` and `TotalPacks = 4`, in the
standalone calculator of `main.go` and in the service alike. -/
theorem large_order_12001 (pc : Main.PackCalculator) (s : Service) :
    Main.PackCalculator.GetPackSizes
        (Main.PackCalculator.SetPackSizes pc [250, 500, 1000, 2000, 5000])
      = [5000, 2000, 1000, 500, 250] ∧
    (Main.PackCalculator.CalculatePacks
        (Main.PackCalculator.SetPackSizes pc [250, 500, 1000, 2000, 5000]) 12001).2
      = some { Packs := some [(250, 1), (2000, 1), (5000, 2)], TotalItems := 12250,
               TotalPacks := 4 } ∧
    (Service.CalculatePacks (Service.SetPackSizes s [250, 500, 1000, 2000, 5000]) 12001).2
      = some { Packs := some [(250, 1), (2000, 1), (5000, 2)], TotalItems := 12250,
               TotalPacks := 4 } := by
  refine ⟨sortDescending_large, ?_, ?_⟩
  · have h := main_calculatePacks_eq 12001 [5000, 2000, 1000, 500, 250]
    rw [large_optimal] at h
    unfold Main.PackCalculator.SetPackSizes
    rw [sortDescending_large]
    exact main_response_eq h
  · rw [calculatePacks_fresh, sortDescending_large, large_optimal]

/-! ## Lists in any order -/

/-- C21, as the code has it. On the order `9223372036854775807` with the
unsorted pack sizes `[1, 2]` both copies of the algorithm panic in `make`:
neither returns a response. -/
theorem any_order_fails_on_overflow :
    (0 : Int) < 9223372036854775807 ∧ (∀ p ∈ [(1 : Int), 2], 0 < p) ∧
      CalculateOptimalPacks 9223372036854775807 [1, 2] = none ∧
      (Main.PackCalculator.CalculatePacks { packSizes := [1, 2], cache := [] }
          9223372036854775807).2 = none := by
  decide

/-- C21, amended. For a positive order and a non-empty list of positive pack
sizes in any order, so that the bound `orderSize + packSizes[0]` may rest on a
size that is not the largest, whose table of `orderSize + packSizes[0] + 1`
cells can be allocated, the optimiser returns a response that is not the `-1`
mark, carries a pack map summing to `TotalItems`, and whose `TotalItems` is the
least sum of pack sizes that is at least the order; the standalone calculator
of `main.go`, holding the same list and an empty memo, returns the same
fields. -/
theorem total_items_least_any_order (orderSize : Int) (packSizes : List Int)
    (ho : 0 < orderSize) (hne : packSizes ≠ []) (hpos : ∀ p ∈ packSizes, 0 < p)
    (hfit : orderSize + packSizes.head hne + 1 ≤ maxTableLen) :
    ∃ r, CalculateOptimalPacks orderSize packSizes = some r ∧
      r.TotalItems ≠ -1 ∧ r.Packs ≠ none ∧
      PackMap.items (entriesOf r.Packs) = r.TotalItems ∧
      orderSize ≤ r.TotalItems ∧ Reachable packSizes r.TotalItems ∧
      (∀ l, Combo packSizes l → orderSize ≤ l.sum → r.TotalItems ≤ l.sum) ∧
      (Main.PackCalculator.CalculatePacks { packSizes := packSizes, cache := [] }
          orderSize).2.map Main.responseFields = some (responseFields r) := by
  cases packSizes with
  | nil => exact absurd rfl hne
  | cons first others =>
    obtain ⟨r, k, hcalc, hk1, -, hk3, hok, hmin⟩ := calculate_least ho hpos hfit
    have hmarked : r.TotalItems ≠ -1 := by omega
    have hmain := main_calculatePacks_eq orderSize (first :: others)
    rw [hcalc] at hmain
    rcases hok with hbad | ⟨-, ⟨m, hm, hitems, -, -⟩, l, hl, hsum, -⟩
    · exact absurd hbad hmarked
    · refine ⟨_, hcalc, hmarked, ?_, ?_, ?_, ⟨l, hl, ?_⟩, ?_, hmain⟩
      · simp only [hm]
        exact Option.some_ne_none m
      · simp only [hm, entriesOf, hitems, hk3]
      · simp only; omega
      · simp only [hsum, hk3]
      · intro l' hl' hsum'
        simp only
        rw [hk3]
        exact hmin l'.sum hsum' ⟨l', hl', rfl⟩

theorem total_items_least_any_order_witness :
    ∃ r, CalculateOptimalPacks 263 [250, 500, 1000, 2000, 5000] = some r ∧
      r.TotalItems ≠ -1 ∧ r.Packs ≠ none ∧
      PackMap.items (entriesOf r.Packs) = r.TotalItems ∧
      (263 : Int) ≤ r.TotalItems ∧ Reachable [250, 500, 1000, 2000, 5000] r.TotalItems ∧
      (∀ l, Combo [250, 500, 1000, 2000, 5000] l → 263 ≤ l.sum → r.TotalItems ≤ l.sum) ∧
      (Main.PackCalculator.CalculatePacks
          { packSizes := [250, 500, 1000, 2000, 5000], cache := [] } 263).2.map
        Main.responseFields = some (responseFields r) :=
  total_items_least_any_order 263 [250, 500, 1000, 2000, 5000] (by decide) (by decide)
    (by decide) (by decide)

end PackCalculator
